import Mathlib

/-!
Verification of the SDN controller core (`src/router.py`, `src/db/command_db.py`)
of the Network-Simulator-Server repository.

Python dictionaries are embedded as association lists in insertion order
(Python 3 dicts preserve insertion order; updating an existing key keeps its
position, a new key is appended).  `defaultdict(dict)` reads that create an
entry are modelled by `dGet`, which appends an empty entry on a miss.
-/

namespace NetSim

/-- `aget m k` is Python `m[k]` as an option (`m.get(k)`): the value stored at
the first (unique) occurrence of key `k`. -/
def aget {α β : Type} [DecidableEq α] : List (α × β) → α → Option β
  | [], _ => none
  | (k, v) :: t, x => if k = x then some v else aget t x

/-- `acontains m k` is Python `k in m`. -/
def acontains {α β : Type} [DecidableEq α] (m : List (α × β)) (k : α) : Bool :=
  (aget m k).isSome

/-- `aset m k v` is Python `m[k] = v`: update in place if the key exists
(keeping its position), otherwise append at the end. -/
def aset {α β : Type} [DecidableEq α] : List (α × β) → α → β → List (α × β)
  | [], k, v => [(k, v)]
  | (k', v') :: t, k, v => if k' = k then (k, v) :: t else (k', v') :: aset t k v

/-- `adel m k` is Python `del m[k]` (when the key is present) and `m.pop(k, None)`
otherwise: remove the entry for `k` if there is one. -/
def adel {α β : Type} [DecidableEq α] : List (α × β) → α → List (α × β)
  | [], _ => []
  | (k', v') :: t, k => if k' = k then t else (k', v') :: adel t k

/-- `dGet m k` is a read `m[k]` on a Python `defaultdict(dict)`: if the key is
absent a fresh empty entry is appended and returned. -/
def dGet {α β : Type} [DecidableEq α] (m : List (α × List β)) (k : α) :
    List (α × List β) × List β :=
  match aget m k with
  | some v => (m, v)
  | none => (m ++ [(k, [])], [])

theorem aget_aset_self {α β : Type} [DecidableEq α] (m : List (α × β)) (k : α) (v : β) :
    aget (aset m k v) k = some v := by
  induction m with
  | nil => simp [aget, aset]
  | cons h t ih =>
    obtain ⟨k', v'⟩ := h
    by_cases hk : k' = k
    · simp [aset, hk, aget]
    · simp [aset, hk, aget, ih]

theorem aget_aset_ne {α β : Type} [DecidableEq α] (m : List (α × β)) (k x : α) (v : β)
    (hne : k ≠ x) : aget (aset m k v) x = aget m x := by
  induction m with
  | nil => simp [aget, aset, hne]
  | cons h t ih =>
    obtain ⟨k', v'⟩ := h
    by_cases hk : k' = k
    · subst hk
      simp [aset, aget, hne, ih]
    · by_cases hx : k' = x
      · simp [aset, hk, aget, hx, Ne.symm hne]
      · simp [aset, hk, aget, hx, ih]

theorem aset_aset_same {α β : Type} [DecidableEq α] (m : List (α × β)) (k : α) (v w : β) :
    aset (aset m k v) k w = aset m k w := by
  induction m with
  | nil => simp [aset]
  | cons h t ih =>
    obtain ⟨k', v'⟩ := h
    by_cases hk : k' = k
    · simp [aset, hk]
    · simp [aset, hk, ih]

theorem aset_eq_of_aget {α β : Type} [DecidableEq α] (m : List (α × β)) (k : α) (v : β)
    (h : aget m k = some v) : aset m k v = m := by
  induction m with
  | nil => simp [aget] at h
  | cons hd t ih =>
    obtain ⟨k', v'⟩ := hd
    by_cases hk : k' = k
    · subst hk
      simp [aget] at h
      simp [aset, h]
    · simp [aget, hk] at h
      simp [aset, hk, ih h]

theorem aget_adel_ne {α β : Type} [DecidableEq α] (m : List (α × β)) (k x : α)
    (hne : k ≠ x) : aget (adel m k) x = aget m x := by
  induction m with
  | nil => simp [adel]
  | cons h t ih =>
    obtain ⟨k', v'⟩ := h
    by_cases hk : k' = k
    · subst hk
      simp [adel, aget, hne]
    · by_cases hx : k' = x
      · simp [adel, hk, aget, hx, Ne.symm hne]
      · simp [adel, hk, aget, hx, ih]

theorem aget_mem {α β : Type} [DecidableEq α] (m : List (α × β)) (k : α) (v : β)
    (h : aget m k = some v) : (k, v) ∈ m := by
  induction m with
  | nil => simp [aget] at h
  | cons hd t ih =>
    obtain ⟨k', v'⟩ := hd
    by_cases hk : k' = k
    · subst hk
      simp [aget] at h
      simp [h]
    · simp [aget, hk] at h
      simp [ih h]

/-- The adjacency list `adjacency_list : {switch: {neighbor: port}}` of
`router.py`, as an insertion-ordered association list. -/
abbrev AdjList := List (Nat × List (Nat × Nat))

/-- A priority-queue entry `(cost, node, path)` of `dijkstra`. -/
abbrev Ent := Nat × Nat × List Nat

/-- Python `<` on `list[int]`: lexicographic, a strict prefix is smaller. -/
def listLtB : List Nat → List Nat → Bool
  | [], [] => false
  | [], _ :: _ => true
  | _ :: _, [] => false
  | a :: as, b :: bs => if a < b then true else if b < a then false else listLtB as bs

/-- Python `<` on the `(cost, node, path)` tuples that `heapq` compares. -/
def entLtB (a b : Ent) : Bool :=
  if a.1 < b.1 then true
  else if b.1 < a.1 then false
  else if a.2.1 < b.2.1 then true
  else if b.2.1 < a.2.1 then false
  else listLtB a.2.2 b.2.2

/-- The smallest entry (first one among equals) of `e :: l` under `entLtB`. -/
def findMin (e : Ent) : List Ent → Ent
  | [] => e
  | x :: t => if entLtB x e then findMin x t else findMin e t

/-- `heapq.heappop`: remove and return the smallest entry of the heap.
Distinct entries never compare equal under the total tuple order, so taking
the first minimal element and erasing one occurrence of it is exactly the
multiset semantics of the Python heap. -/
def popMin : List Ent → Option (Ent × List Ent)
  | [] => none
  | x :: t =>
    let m := findMin x t
    some (m, (x :: t).erase m)

theorem cost_le_of_not_entLt (a b : Ent) (h : entLtB a b = false) : b.1 ≤ a.1 := by
  unfold entLtB at h
  by_cases h1 : a.1 < b.1
  · simp [h1] at h
  · omega

theorem cost_le_of_entLt (a b : Ent) (h : entLtB a b = true) : a.1 ≤ b.1 := by
  unfold entLtB at h
  by_cases h1 : a.1 < b.1
  · omega
  · by_cases h2 : b.1 < a.1
    · simp [h1, h2] at h
    · omega

theorem findMin_mem (e : Ent) (l : List Ent) : findMin e l = e ∨ findMin e l ∈ l := by
  induction l generalizing e with
  | nil => simp [findMin]
  | cons x t ih =>
    unfold findMin
    by_cases hx : entLtB x e
    · simp [hx]
      rcases ih x with h | h
      · simp [h]
      · simp [h]
    · simp [hx]
      rcases ih e with h | h
      · simp [h]
      · simp [h]

theorem findMin_cost_le (e : Ent) (l : List Ent) :
    (findMin e l).1 ≤ e.1 ∧ ∀ x ∈ l, (findMin e l).1 ≤ x.1 := by
  induction l generalizing e with
  | nil => simp [findMin]
  | cons x t ih =>
    unfold findMin
    by_cases hx : entLtB x e
    · have hxe : x.1 ≤ e.1 := cost_le_of_entLt x e hx
      obtain ⟨h1, h2⟩ := ih x
      simp only [hx, if_true]
      refine ⟨le_trans h1 hxe, ?_⟩
      intro y hy
      rcases List.mem_cons.1 hy with rfl | hy
      · exact h1
      · exact h2 y hy
    · have hex : e.1 ≤ x.1 := cost_le_of_not_entLt x e (by simpa using hx)
      obtain ⟨h1, h2⟩ := ih e
      simp only [hx, if_false, Bool.false_eq_true]
      refine ⟨h1, ?_⟩
      intro y hy
      rcases List.mem_cons.1 hy with rfl | hy
      · exact le_trans h1 hex
      · exact h2 y hy

theorem popMin_eq_some (pq : List Ent) (e : Ent) (rest : List Ent)
    (h : popMin pq = some (e, rest)) :
    e ∈ pq ∧ rest = pq.erase e ∧ ∀ x ∈ pq, e.1 ≤ x.1 := by
  match pq with
  | [] => simp [popMin] at h
  | x :: t =>
    simp only [popMin, Option.some.injEq, Prod.mk.injEq] at h
    obtain ⟨he, hr⟩ := h
    subst he
    subst hr
    refine ⟨?_, rfl, ?_⟩
    · rcases findMin_mem x t with h | h
      · simp [h]
      · simp [h]
    · intro y hy
      obtain ⟨h1, h2⟩ := findMin_cost_le x t
      rcases List.mem_cons.1 hy with rfl | hy
      · exact h1
      · exact h2 y hy

/-- The neighbor dictionary `adjacency_list[node]` as read inside `dijkstra`
(a read on the defaultdict; the empty entry it may create does not change any
subsequent read, so the graph argument is threaded unchanged). -/
def succList (adj : AdjList) (n : Nat) : List (Nat × Nat) :=
  (aget adj n).getD []

/-- The inner loop of `dijkstra` (router.py lines 111-116): for each neighbor
not yet visited, push `(cost+1, neighbor, path)` if the neighbor has no
distance yet or the new cost is strictly smaller. -/
def pushLoop (visited : List Nat) (c : Nat) (p' : List Nat) :
    List (Nat × Nat) → List Ent → List (Nat × Nat) → List Ent × List (Nat × Nat)
  | [], pq, dist => (pq, dist)
  | (nb, _) :: rest, pq, dist =>
    if nb ∈ visited then pushLoop visited c p' rest pq dist
    else
      match aget dist nb with
      | none => pushLoop visited c p' rest (pq ++ [(c + 1, nb, p')]) (aset dist nb (c + 1))
      | some d =>
        if c + 1 < d then
          pushLoop visited c p' rest (pq ++ [(c + 1, nb, p')]) (aset dist nb (c + 1))
        else pushLoop visited c p' rest pq dist

/-- The main loop of `dijkstra` (router.py lines 101-119), with explicit fuel.
`none` means the fuel ran out (shown impossible below for the fuel used by
`dijkstra`); `some []` is the genuine "no path" return at an empty heap. -/
def loopF (adj : AdjList) (dst : Nat) :
    Nat → List Ent → List Nat → List (Nat × Nat) → Option (List Nat)
  | 0, _, _, _ => none
  | fuel + 1, pq, visited, dist =>
    match popMin pq with
    | none => some []
    | some (e, pq') =>
      if e.2.1 ∈ visited then loopF adj dst fuel pq' visited dist
      else
        if e.2.1 = dst then some (e.2.2 ++ [e.2.1])
        else
          let res := pushLoop (e.2.1 :: visited) e.1 (e.2.2 ++ [e.2.1])
            (succList adj e.2.1) pq' dist
          loopF adj dst fuel res.1 (e.2.1 :: visited) res.2

/-- Every node the loop can ever see: the keys of the adjacency list together
with every neighbor named in it. -/
def allNodes (adj : AdjList) : List Nat :=
  (adj.map (fun kv => kv.1) ++ adj.flatMap (fun kv => kv.2.map (fun nb => nb.1))).dedup

/-- Total number of neighbor entries, an upper bound on any out-degree. -/
def totalAdj (adj : AdjList) : Nat :=
  (adj.map (fun kv => kv.2.length)).sum

/-- Fuel that is always sufficient for `loopF` (proved below). -/
def dijkstraFuel (adj : AdjList) : Nat :=
  (allNodes adj).length * (totalAdj adj + 1) + 2

/-- `dijkstra(src, dst)` of router.py lines 91-119: shortest path between
switches; `[]` when an endpoint is missing from the adjacency list or the
heap empties without reaching `dst`. -/
def dijkstra (adj : AdjList) (src dst : Nat) : List Nat :=
  if acontains adj src && acontains adj dst then
    (loopF adj dst (dijkstraFuel adj) [(0, src, [])] [] [(src, 0)]).getD []
  else []

/-- Directed edge `a → b` is present in the adjacency list. -/
def edgeB (adj : AdjList) (a b : Nat) : Bool :=
  acontains (succList adj a) b

/-- `q` is a nonempty sequence starting at `src`, ending at `dst`, with every
consecutive pair joined by a directed edge of `adj`. -/
def IsPath (adj : AdjList) (src dst : Nat) (q : List Nat) : Prop :=
  q ≠ [] ∧ q.head? = some src ∧ q.getLast? = some dst ∧
    List.Chain' (fun a b => edgeB adj a b = true) q

/-- Executable test that consecutive elements of `q` are joined by edges. -/
def chainB (adj : AdjList) : List Nat → Bool
  | [] => true
  | [_] => true
  | a :: b :: t => edgeB adj a b && chainB adj (b :: t)

theorem chainB_iff (adj : AdjList) :
    ∀ q, chainB adj q = true ↔ List.Chain' (fun a b => edgeB adj a b = true) q := by
  intro q
  induction q with
  | nil => simp [chainB]
  | cons a t ih =>
    cases t with
    | nil => simp [chainB]
    | cons b t2 =>
      rw [List.chain'_cons]
      unfold chainB
      rw [Bool.and_eq_true, ih]

/-- Executable version of `IsPath`, used for decidability. -/
def isPathB (adj : AdjList) (src dst : Nat) (q : List Nat) : Bool :=
  (decide (q ≠ [])) && (decide (q.head? = some src)) &&
    (decide (q.getLast? = some dst)) && chainB adj q

theorem isPathB_iff (adj : AdjList) (src dst : Nat) (q : List Nat) :
    isPathB adj src dst q = true ↔ IsPath adj src dst q := by
  unfold isPathB IsPath
  rw [Bool.and_eq_true, Bool.and_eq_true, Bool.and_eq_true, chainB_iff]
  simp [and_assoc]

instance (adj : AdjList) (src dst : Nat) (q : List Nat) :
    Decidable (IsPath adj src dst q) :=
  decidable_of_iff (isPathB adj src dst q = true) (isPathB_iff adj src dst q)

theorem akeys_mem {α β : Type} [DecidableEq α] (m : List (α × β)) (k : α) :
    k ∈ m.map (fun kv => kv.1) ↔ (aget m k).isSome := by
  induction m with
  | nil => simp [aget]
  | cons h t ih =>
    obtain ⟨k', v'⟩ := h
    by_cases hk : k' = k
    · subst hk
      simp [aget]
    · simp [aget, hk, ih, Ne.symm hk]

theorem filter_length_mono {α : Type} (p q : α → Bool) (l : List α)
    (h : ∀ a, p a = true → q a = true) :
    (l.filter p).length ≤ (l.filter q).length := by
  induction l with
  | nil => simp
  | cons x t ih =>
    by_cases hx : p x = true
    · simp [List.filter, hx, h x hx]
      omega
    · simp only [List.filter, hx]
      by_cases hq : q x = true
      · simp [hq]
        omega
      · simp [hq]
        exact ih

/-- Number of nodes of the universe not yet visited: the outer component of the
termination measure. -/
def unvisCount (adj : AdjList) (visited : List Nat) : Nat :=
  ((allNodes adj).filter (fun x => decide (x ∉ visited))).length

theorem filter_notmem_length_lt (l vis : List Nat) (x : Nat)
    (hx : x ∈ l) (hnv : x ∉ vis) :
    (l.filter (fun a => decide (a ∉ x :: vis))).length <
      (l.filter (fun a => decide (a ∉ vis))).length := by
  induction l with
  | nil => simp at hx
  | cons y t ih =>
    have hmono := filter_length_mono (fun a => decide (a ∉ x :: vis))
      (fun a => decide (a ∉ vis)) t (by
        intro a ha
        simp only [List.mem_cons, not_or, decide_eq_true_eq] at ha
        simp [ha.2])
    rcases List.mem_cons.1 hx with rfl | hy
    · have h1 : (decide (x ∉ x :: vis)) = false := by simp
      have h2 : (decide (x ∉ vis)) = true := by simp [hnv]
      simp only [List.filter, h1, h2, List.length_cons]
      omega
    · by_cases hyv : y ∈ vis
      · have h1 : (decide (y ∉ x :: vis)) = false := by simp [hyv]
        have h2 : (decide (y ∉ vis)) = false := by simp [hyv]
        simp only [List.filter, h1, h2]
        exact ih hy
      · by_cases hyx : y = x
        · subst hyx
          have h1 : (decide (y ∉ y :: vis)) = false := by simp
          have h2 : (decide (y ∉ vis)) = true := by simp [hyv]
          simp only [List.filter, h1, h2, List.length_cons]
          omega
        · have h1 : (decide (y ∉ x :: vis)) = true := by simp [hyv, hyx]
          have h2 : (decide (y ∉ vis)) = true := by simp [hyv]
          simp only [List.filter, h1, h2, List.length_cons]
          have := ih hy
          omega

theorem unvisCount_lt (adj : AdjList) (visited : List Nat) (x : Nat)
    (hx : x ∈ allNodes adj) (hnv : x ∉ visited) :
    unvisCount adj (x :: visited) < unvisCount adj visited :=
  filter_notmem_length_lt (allNodes adj) visited x hx hnv

theorem mem_length_le_totalAdj (adj : AdjList) (k : Nat) (m : List (Nat × Nat))
    (hm : (k, m) ∈ adj) : m.length ≤ totalAdj adj := by
  induction adj with
  | nil => simp at hm
  | cons hd t ih =>
    unfold totalAdj
    rcases List.mem_cons.1 hm with rfl | hmem
    · simp
    · simp only [List.map, List.sum_cons]
      have := ih hmem
      unfold totalAdj at this
      omega

theorem succList_length_le (adj : AdjList) (n : Nat) :
    (succList adj n).length ≤ totalAdj adj := by
  unfold succList
  cases h : aget adj n with
  | none => simp
  | some m =>
    simpa using mem_length_le_totalAdj adj n m (aget_mem adj n m h)

theorem edgeB_iff_mem_succ (adj : AdjList) (a b : Nat) :
    edgeB adj a b = true ↔ b ∈ (succList adj a).map (fun nb => nb.1) := by
  unfold edgeB acontains
  rw [akeys_mem]

theorem path_head_getD (adj : AdjList) (src dst : Nat) (q : List Nat)
    (h : IsPath adj src dst q) : q.getD 0 0 = src := by
  obtain ⟨hne, hh, _, _⟩ := h
  cases q with
  | nil => simp at hne
  | cons a t =>
    simp only [List.head?] at hh
    simp [Option.some.injEq] at hh
    simp [hh]

theorem path_last_getD (adj : AdjList) (src dst : Nat) (q : List Nat)
    (h : IsPath adj src dst q) : q.getD (q.length - 1) 0 = dst := by
  obtain ⟨hne, _, hl, _⟩ := h
  have hlen : 0 < q.length := List.length_pos.2 hne
  rw [List.getD_eq_getElem q 0 (by omega)]
  rw [List.getLast?_eq_getElem?] at hl
  rw [List.getElem?_eq_getElem (by omega)] at hl
  simpa using hl

theorem path_snoc (adj : AdjList) (src b nb : Nat) (q : List Nat)
    (h : IsPath adj src b q) (he : edgeB adj b nb = true) :
    IsPath adj src nb (q ++ [nb]) := by
  obtain ⟨hne, hh, hl, hc⟩ := h
  refine ⟨by simp, ?_, by simp, ?_⟩
  · cases q with
    | nil => simp at hne
    | cons a t => simpa using hh
  · refine List.Chain'.append hc (List.chain'_singleton nb) ?_
    intro x hx y hy
    simp only [List.head?_cons, Option.mem_def, Option.some.injEq] at hy
    rw [hl] at hx
    simp only [Option.mem_def, Option.some.injEq] at hx
    subst hx
    subst hy
    exact he

theorem path_step (adj : AdjList) (src dst : Nat) (q : List Nat)
    (h : IsPath adj src dst q) (k : Nat) (hk : k + 1 < q.length) :
    edgeB adj (q.getD k 0) (q.getD (k + 1) 0) = true := by
  obtain ⟨_, _, _, hc⟩ := h
  have := List.chain'_iff_get.1 hc k (by omega)
  rw [List.getD_eq_getElem q 0 (by omega), List.getD_eq_getElem q 0 hk]
  simpa [List.get_eq_getElem] using this

theorem path_mem_keys (adj : AdjList) (src dst : Nat) (q : List Nat)
    (h : IsPath adj src dst q) (hdst : acontains adj dst = true) :
    ∀ x ∈ q, acontains adj x = true := by
  obtain ⟨hne, hh, hl, hc⟩ := h
  clear hne hh
  induction q generalizing src with
  | nil => simp
  | cons a t ih =>
    intro x hx
    cases t with
    | nil =>
      simp only [List.getLast?_singleton, Option.some.injEq] at hl
      rcases List.mem_singleton.1 hx with rfl
      rw [hl]
      exact hdst
    | cons b t2 =>
      rw [List.chain'_cons] at hc
      rcases List.mem_cons.1 hx with rfl | hx2
      · -- x has an outgoing edge, so it is a key of the adjacency list
        have hedge := hc.1
        unfold edgeB acontains succList at hedge
        cases hadj : aget adj x with
        | none => simp [hadj, aget] at hedge
        | some m => simp [acontains, hadj]
      · exact ih b (by simpa using hl) hc.2 x hx2

/-- The invariant maintained by the main loop of `dijkstra`. -/
structure LoopInv (adj : AdjList) (src dst : Nat) (pq : List Ent)
    (visited : List Nat) (dist : List (Nat × Nat)) : Prop where
  invA : ∀ e ∈ pq, IsPath adj src e.2.1 (e.2.2 ++ [e.2.1]) ∧ e.2.2.length = e.1
  invB : dst ∉ visited
  invC : ∀ v d, aget dist v = some d → v ∉ visited →
    ∃ e ∈ pq, e.2.1 = v ∧ e.1 ≤ d
  invD : ∀ e ∈ pq, ∃ d, aget dist e.2.1 = some d ∧ d ≤ e.1
  invH : ∀ u ∈ visited, ∀ v ∈ (succList adj u).map (fun nb => nb.1),
    ∃ du dv, aget dist u = some du ∧ aget dist v = some dv ∧ dv ≤ du + 1
  invHu : ∀ u ∈ visited, (aget dist u).isSome = true
  invM : ∀ u ∈ visited, ∀ d, aget dist u = some d → ∀ e ∈ pq, d ≤ e.1
  invU : ∀ e ∈ pq, e.2.1 ∈ allNodes adj
  invG : ∀ q, IsPath adj src dst q → ∃ j, j < q.length ∧ q.getD j 0 ∉ visited ∧
    ∃ e ∈ pq, e.2.1 = q.getD j 0 ∧ e.1 ≤ j

theorem pushLoop_cons_vis (visited : List Nat) (c : Nat) (p' : List Nat)
    (nb port : Nat) (rest : List (Nat × Nat)) (pq : List Ent) (dist : List (Nat × Nat))
    (h : nb ∈ visited) :
    pushLoop visited c p' ((nb, port) :: rest) pq dist =
      pushLoop visited c p' rest pq dist := by
  simp [pushLoop, h]

theorem pushLoop_cons_push_none (visited : List Nat) (c : Nat) (p' : List Nat)
    (nb port : Nat) (rest : List (Nat × Nat)) (pq : List Ent) (dist : List (Nat × Nat))
    (h : nb ∉ visited) (h2 : aget dist nb = none) :
    pushLoop visited c p' ((nb, port) :: rest) pq dist =
      pushLoop visited c p' rest (pq ++ [(c + 1, nb, p')]) (aset dist nb (c + 1)) := by
  simp [pushLoop, h, h2]

theorem pushLoop_cons_push_lt (visited : List Nat) (c : Nat) (p' : List Nat)
    (nb port : Nat) (rest : List (Nat × Nat)) (pq : List Ent) (dist : List (Nat × Nat))
    (d : Nat) (h : nb ∉ visited) (h2 : aget dist nb = some d) (h3 : c + 1 < d) :
    pushLoop visited c p' ((nb, port) :: rest) pq dist =
      pushLoop visited c p' rest (pq ++ [(c + 1, nb, p')]) (aset dist nb (c + 1)) := by
  simp [pushLoop, h, h2, h3]

theorem pushLoop_cons_skip (visited : List Nat) (c : Nat) (p' : List Nat)
    (nb port : Nat) (rest : List (Nat × Nat)) (pq : List Ent) (dist : List (Nat × Nat))
    (d : Nat) (h : nb ∉ visited) (h2 : aget dist nb = some d) (h3 : ¬ c + 1 < d) :
    pushLoop visited c p' ((nb, port) :: rest) pq dist =
      pushLoop visited c p' rest pq dist := by
  simp [pushLoop, h, h2, h3]

theorem pushLoop_dist_mono (visited : List Nat) (c : Nat) (p' : List Nat)
    (nbrs : List (Nat × Nat)) :
    ∀ pq dist v dv, aget dist v = some dv →
      ∃ dv', aget (pushLoop visited c p' nbrs pq dist).2 v = some dv' ∧ dv' ≤ dv := by
  induction nbrs with
  | nil =>
    intro pq dist v dv hv
    exact ⟨dv, hv, le_refl dv⟩
  | cons hd rest ih =>
    intro pq dist v dv hv
    obtain ⟨nb, port⟩ := hd
    by_cases hvis : nb ∈ visited
    · simp only [pushLoop, hvis, if_true]
      exact ih pq dist v dv hv
    · simp only [pushLoop, hvis, if_false]
      cases hnb : aget dist nb with
      | none =>
        by_cases hvnb : v = nb
        · subst hvnb
          rw [hv] at hnb
          exact absurd hnb (by simp)
        · have : aget (aset dist nb (c + 1)) v = some dv := by
            rw [aget_aset_ne dist nb v (c + 1) (fun h => hvnb (h.symm ▸ rfl))]
            exact hv
          exact ih _ _ v dv this
      | some d =>
        by_cases hlt : c + 1 < d
        · simp only [hlt, if_true]
          by_cases hvnb : v = nb
          · subst hvnb
            rw [hv] at hnb
            injection hnb with hd2
            subst hd2
            obtain ⟨dv', h1, h2⟩ := ih _ (aset dist v (c + 1)) v (c + 1)
              (aget_aset_self dist v (c + 1))
            exact ⟨dv', h1, by omega⟩
          · have : aget (aset dist nb (c + 1)) v = some dv := by
              rw [aget_aset_ne dist nb v (c + 1) (fun h => hvnb (h.symm ▸ rfl))]
              exact hv
            exact ih _ _ v dv this
        · simp only [hlt, if_false]
          exact ih pq dist v dv hv

theorem pushLoop_dist_frozen (visited : List Nat) (c : Nat) (p' : List Nat)
    (nbrs : List (Nat × Nat)) :
    ∀ pq dist u, u ∈ visited →
      aget (pushLoop visited c p' nbrs pq dist).2 u = aget dist u := by
  induction nbrs with
  | nil =>
    intro pq dist u _
    rfl
  | cons hd rest ih =>
    intro pq dist u hu
    obtain ⟨nb, port⟩ := hd
    by_cases hvis : nb ∈ visited
    · simp only [pushLoop, hvis, if_true]
      exact ih pq dist u hu
    · have hne : nb ≠ u := fun h => hvis (h ▸ hu)
      simp only [pushLoop, hvis, if_false]
      cases hnb : aget dist nb with
      | none =>
        rw [ih _ _ u hu, aget_aset_ne dist nb u (c + 1) hne]
      | some d =>
        by_cases hlt : c + 1 < d
        · simp only [hlt, if_true]
          rw [ih _ _ u hu, aget_aset_ne dist nb u (c + 1) hne]
        · simp only [hlt, if_false]
          exact ih pq dist u hu

theorem pushLoop_pq_sub (visited : List Nat) (c : Nat) (p' : List Nat)
    (nbrs : List (Nat × Nat)) :
    ∀ pq dist e, e ∈ (pushLoop visited c p' nbrs pq dist).1 →
      e ∈ pq ∨ (e.1 = c + 1 ∧ e.2.2 = p' ∧
        e.2.1 ∈ nbrs.map (fun nb => nb.1) ∧ e.2.1 ∉ visited) := by
  induction nbrs with
  | nil =>
    intro pq dist e he
    exact Or.inl he
  | cons hd rest ih =>
    intro pq dist e he
    obtain ⟨nb, port⟩ := hd
    by_cases hvis : nb ∈ visited
    · rw [pushLoop_cons_vis visited c p' nb port rest pq dist hvis] at he
      rcases ih pq dist e he with h | h
      · exact Or.inl h
      · exact Or.inr ⟨h.1, h.2.1, by simp [h.2.2.1], h.2.2.2⟩
    · have push_case : e ∈ (pushLoop visited c p' rest
          (pq ++ [(c + 1, nb, p')]) (aset dist nb (c + 1))).1 →
          e ∈ pq ∨ (e.1 = c + 1 ∧ e.2.2 = p' ∧
            e.2.1 ∈ ((nb, port) :: rest).map (fun nb => nb.1) ∧ e.2.1 ∉ visited) := by
        intro hin
        rcases ih _ _ e hin with h | h
        · rcases List.mem_append.1 h with h2 | h2
          · exact Or.inl h2
          · rcases List.mem_singleton.1 h2 with rfl
            exact Or.inr ⟨rfl, rfl, by simp, hvis⟩
        · exact Or.inr ⟨h.1, h.2.1, by simp [h.2.2.1], h.2.2.2⟩
      cases hnb : aget dist nb with
      | none =>
        rw [pushLoop_cons_push_none visited c p' nb port rest pq dist hvis hnb] at he
        exact push_case he
      | some d =>
        by_cases hlt : c + 1 < d
        · rw [pushLoop_cons_push_lt visited c p' nb port rest pq dist d hvis hnb hlt] at he
          exact push_case he
        · rw [pushLoop_cons_skip visited c p' nb port rest pq dist d hvis hnb hlt] at he
          rcases ih pq dist e he with h | h
          · exact Or.inl h
          · exact Or.inr ⟨h.1, h.2.1, by simp [h.2.2.1], h.2.2.2⟩

theorem pushLoop_pq_persist (visited : List Nat) (c : Nat) (p' : List Nat)
    (nbrs : List (Nat × Nat)) :
    ∀ pq dist e, e ∈ pq → e ∈ (pushLoop visited c p' nbrs pq dist).1 := by
  induction nbrs with
  | nil =>
    intro pq dist e he
    exact he
  | cons hd rest ih =>
    intro pq dist e he
    obtain ⟨nb, port⟩ := hd
    by_cases hvis : nb ∈ visited
    · simp only [pushLoop, hvis, if_true]
      exact ih pq dist e he
    · simp only [pushLoop, hvis, if_false]
      cases hnb : aget dist nb with
      | none => exact ih _ _ e (List.mem_append.2 (Or.inl he))
      | some d =>
        by_cases hlt : c + 1 < d
        · simp only [hlt, if_true]
          exact ih _ _ e (List.mem_append.2 (Or.inl he))
        · simp only [hlt, if_false]
          exact ih pq dist e he

theorem pushLoop_invC (visited : List Nat) (c : Nat) (p' : List Nat)
    (nbrs : List (Nat × Nat)) :
    ∀ pq dist,
      (∀ v d, aget dist v = some d → v ∉ visited → ∃ e ∈ pq, e.2.1 = v ∧ e.1 ≤ d) →
      ∀ v d, aget (pushLoop visited c p' nbrs pq dist).2 v = some d → v ∉ visited →
        ∃ e ∈ (pushLoop visited c p' nbrs pq dist).1, e.2.1 = v ∧ e.1 ≤ d := by
  induction nbrs with
  | nil =>
    intro pq dist hyp v d hv hnv
    exact hyp v d hv hnv
  | cons hd rest ih =>
    intro pq dist hyp v d hv hnv
    obtain ⟨nb, port⟩ := hd
    by_cases hvis : nb ∈ visited
    · simp only [pushLoop, hvis, if_true] at hv ⊢
      exact ih pq dist hyp v d hv hnv
    · simp only [pushLoop, hvis, if_false] at hv ⊢
      have newhyp : ∀ v d, aget (aset dist nb (c + 1)) v = some d → v ∉ visited →
          ∃ e ∈ pq ++ [(c + 1, nb, p')], e.2.1 = v ∧ e.1 ≤ d := by
        intro v d hv hnv
        by_cases hvnb : v = nb
        · subst hvnb
          rw [aget_aset_self dist v (c + 1)] at hv
          injection hv with hd2
          subst hd2
          exact ⟨(c + 1, v, p'), by simp, rfl, le_refl _⟩
        · rw [aget_aset_ne dist nb v (c + 1) (fun h => hvnb (h.symm ▸ rfl))] at hv
          obtain ⟨e, he, h1, h2⟩ := hyp v d hv hnv
          exact ⟨e, List.mem_append.2 (Or.inl he), h1, h2⟩
      cases hnb : aget dist nb with
      | none =>
        rw [hnb] at hv
        exact ih _ _ newhyp v d hv hnv
      | some d0 =>
        rw [hnb] at hv
        by_cases hlt : c + 1 < d0
        · simp only [hlt, if_true] at hv ⊢
          exact ih _ _ newhyp v d hv hnv
        · simp only [hlt, if_false] at hv ⊢
          exact ih pq dist hyp v d hv hnv

theorem pushLoop_invD (visited : List Nat) (c : Nat) (p' : List Nat)
    (nbrs : List (Nat × Nat)) :
    ∀ pq dist,
      (∀ e ∈ pq, ∃ d, aget dist e.2.1 = some d ∧ d ≤ e.1) →
      ∀ e ∈ (pushLoop visited c p' nbrs pq dist).1,
        ∃ d, aget (pushLoop visited c p' nbrs pq dist).2 e.2.1 = some d ∧ d ≤ e.1 := by
  induction nbrs with
  | nil =>
    intro pq dist hyp e he
    exact hyp e he
  | cons hd rest ih =>
    intro pq dist hyp e he
    obtain ⟨nb, port⟩ := hd
    by_cases hvis : nb ∈ visited
    · simp only [pushLoop, hvis, if_true] at he ⊢
      exact ih pq dist hyp e he
    · simp only [pushLoop, hvis, if_false] at he ⊢
      cases hnb : aget dist nb with
      | none =>
        rw [hnb] at he
        refine ih _ _ ?_ e he
        intro e2 he2
        rcases List.mem_append.1 he2 with h2 | h2
        · obtain ⟨d, hd2, hle⟩ := hyp e2 h2
          by_cases hvnb : e2.2.1 = nb
          · rw [hvnb, hnb] at hd2
            exact absurd hd2 (by simp)
          · exact ⟨d, by
              rw [aget_aset_ne dist nb e2.2.1 (c + 1) (fun h => hvnb (h.symm ▸ rfl))]
              exact hd2, hle⟩
        · rcases List.mem_singleton.1 h2 with rfl
          exact ⟨c + 1, by simp [aget_aset_self], le_refl _⟩
      | some d0 =>
        rw [hnb] at he
        by_cases hlt : c + 1 < d0
        · simp only [hlt, if_true] at he ⊢
          refine ih _ _ ?_ e he
          intro e2 he2
          rcases List.mem_append.1 he2 with h2 | h2
          · obtain ⟨d, hd2, hle⟩ := hyp e2 h2
            by_cases hvnb : e2.2.1 = nb
            · rw [hvnb, hnb] at hd2
              injection hd2 with hd3
              subst hd3
              exact ⟨c + 1, by rw [hvnb]; simp [aget_aset_self], by omega⟩
            · exact ⟨d, by
                rw [aget_aset_ne dist nb e2.2.1 (c + 1) (fun h => hvnb (h.symm ▸ rfl))]
                exact hd2, hle⟩
          · rcases List.mem_singleton.1 h2 with rfl
            exact ⟨c + 1, by simp [aget_aset_self], le_refl _⟩
        · simp only [hlt, if_false] at he ⊢
          exact ih pq dist hyp e he

theorem pushLoop_cover (visited : List Nat) (c : Nat) (p' : List Nat)
    (nbrs : List (Nat × Nat)) :
    ∀ pq dist nb, nb ∈ nbrs.map (fun x => x.1) → nb ∉ visited →
      ∃ d, aget (pushLoop visited c p' nbrs pq dist).2 nb = some d ∧ d ≤ c + 1 := by
  induction nbrs with
  | nil =>
    intro pq dist nb hnb _
    simp at hnb
  | cons hd rest ih =>
    intro pq dist nb hnb hnv
    obtain ⟨nb0, port⟩ := hd
    simp only [List.map, List.mem_cons] at hnb
    by_cases hvis : nb0 ∈ visited
    · rw [pushLoop_cons_vis visited c p' nb0 port rest pq dist hvis]
      rcases hnb with rfl | hnb2
      · exact absurd hvis hnv
      · exact ih pq dist nb hnb2 hnv
    · rcases hnb with rfl | hnb2
      · -- the target neighbor is processed right now
        cases hnb0 : aget dist nb with
        | none =>
          rw [pushLoop_cons_push_none visited c p' nb port rest pq dist hvis hnb0]
          exact pushLoop_dist_mono visited c p' rest
            (pq ++ [(c + 1, nb, p')]) (aset dist nb (c + 1)) nb (c + 1)
            (aget_aset_self dist nb (c + 1))
        | some d0 =>
          by_cases hlt : c + 1 < d0
          · rw [pushLoop_cons_push_lt visited c p' nb port rest pq dist d0 hvis hnb0 hlt]
            exact pushLoop_dist_mono visited c p' rest
              (pq ++ [(c + 1, nb, p')]) (aset dist nb (c + 1)) nb (c + 1)
              (aget_aset_self dist nb (c + 1))
          · rw [pushLoop_cons_skip visited c p' nb port rest pq dist d0 hvis hnb0 hlt]
            obtain ⟨dv', h1, h2⟩ := pushLoop_dist_mono visited c p' rest
              pq dist nb d0 hnb0
            exact ⟨dv', h1, by omega⟩
      · cases hnb0 : aget dist nb0 with
        | none =>
          rw [pushLoop_cons_push_none visited c p' nb0 port rest pq dist hvis hnb0]
          exact ih _ _ nb hnb2 hnv
        | some d0 =>
          by_cases hlt : c + 1 < d0
          · rw [pushLoop_cons_push_lt visited c p' nb0 port rest pq dist d0 hvis hnb0 hlt]
            exact ih _ _ nb hnb2 hnv
          · rw [pushLoop_cons_skip visited c p' nb0 port rest pq dist d0 hvis hnb0 hlt]
            exact ih pq dist nb hnb2 hnv

theorem pushLoop_length (visited : List Nat) (c : Nat) (p' : List Nat)
    (nbrs : List (Nat × Nat)) :
    ∀ pq dist, (pushLoop visited c p' nbrs pq dist).1.length ≤ pq.length + nbrs.length := by
  induction nbrs with
  | nil =>
    intro pq dist
    simp [pushLoop]
  | cons hd rest ih =>
    intro pq dist
    obtain ⟨nb, port⟩ := hd
    by_cases hvis : nb ∈ visited
    · rw [pushLoop_cons_vis visited c p' nb port rest pq dist hvis]
      have := ih pq dist
      simp only [List.length_cons]
      omega
    · cases hnb : aget dist nb with
      | none =>
        rw [pushLoop_cons_push_none visited c p' nb port rest pq dist hvis hnb]
        have := ih (pq ++ [(c + 1, nb, p')]) (aset dist nb (c + 1))
        simp only [List.length_append, List.length_singleton] at this
        simp only [List.length_cons]
        omega
      | some d =>
        by_cases hlt : c + 1 < d
        · rw [pushLoop_cons_push_lt visited c p' nb port rest pq dist d hvis hnb hlt]
          have := ih (pq ++ [(c + 1, nb, p')]) (aset dist nb (c + 1))
          simp only [List.length_append, List.length_singleton] at this
          simp only [List.length_cons]
          omega
        · rw [pushLoop_cons_skip visited c p' nb port rest pq dist d hvis hnb hlt]
          have := ih pq dist
          simp only [List.length_cons]
          omega

theorem popMin_none (pq : List Ent) (h : popMin pq = none) : pq = [] := by
  cases pq with
  | nil => rfl
  | cons x t => simp [popMin] at h

theorem succ_mem_allNodes (adj : AdjList) (u v : Nat)
    (hv : v ∈ (succList adj u).map (fun nb => nb.1)) : v ∈ allNodes adj := by
  unfold succList at hv
  cases h : aget adj u with
  | none => simp [h] at hv
  | some m =>
    rw [h] at hv
    simp only [Option.getD_some] at hv
    unfold allNodes
    rw [List.mem_dedup]
    refine List.mem_append.2 (Or.inr ?_)
    rw [List.mem_flatMap]
    exact ⟨(u, m), aget_mem adj u m h, hv⟩

theorem loopF_succ_empty (adj : AdjList) (dst fuel : Nat) (pq : List Ent)
    (visited : List Nat) (dist : List (Nat × Nat)) (h : popMin pq = none) :
    loopF adj dst (fuel + 1) pq visited dist = some [] := by
  simp [loopF, h]

theorem loopF_succ_skip (adj : AdjList) (dst fuel : Nat) (pq : List Ent)
    (visited : List Nat) (dist : List (Nat × Nat)) (e : Ent) (pq' : List Ent)
    (h : popMin pq = some (e, pq')) (hv : e.2.1 ∈ visited) :
    loopF adj dst (fuel + 1) pq visited dist = loopF adj dst fuel pq' visited dist := by
  simp [loopF, h, hv]

theorem loopF_succ_ret (adj : AdjList) (dst fuel : Nat) (pq : List Ent)
    (visited : List Nat) (dist : List (Nat × Nat)) (e : Ent) (pq' : List Ent)
    (h : popMin pq = some (e, pq')) (hv : e.2.1 ∉ visited) (hd : e.2.1 = dst) :
    loopF adj dst (fuel + 1) pq visited dist = some (e.2.2 ++ [e.2.1]) := by
  simp only [loopF, h]
  rw [if_neg hv, if_pos hd]

theorem loopF_succ_go (adj : AdjList) (dst fuel : Nat) (pq : List Ent)
    (visited : List Nat) (dist : List (Nat × Nat)) (e : Ent) (pq' : List Ent)
    (h : popMin pq = some (e, pq')) (hv : e.2.1 ∉ visited) (hd : e.2.1 ≠ dst) :
    loopF adj dst (fuel + 1) pq visited dist =
      loopF adj dst fuel
        (pushLoop (e.2.1 :: visited) e.1 (e.2.2 ++ [e.2.1]) (succList adj e.2.1) pq' dist).1
        (e.2.1 :: visited)
        (pushLoop (e.2.1 :: visited) e.1 (e.2.2 ++ [e.2.1]) (succList adj e.2.1) pq' dist).2 := by
  simp [loopF, h, hv, hd]

theorem inv_skip (adj : AdjList) (src dst : Nat) (pq : List Ent)
    (visited : List Nat) (dist : List (Nat × Nat)) (e : Ent) (pq' : List Ent)
    (hinv : LoopInv adj src dst pq visited dist)
    (hpop : popMin pq = some (e, pq')) (hv : e.2.1 ∈ visited) :
    LoopInv adj src dst pq' visited dist := by
  obtain ⟨hmem, hrest, hmin⟩ := popMin_eq_some pq e pq' hpop
  subst hrest
  have hsub : ∀ x ∈ pq.erase e, x ∈ pq := fun x hx => List.mem_of_mem_erase hx
  have hkeep : ∀ x ∈ pq, x.2.1 ∉ visited → x ∈ pq.erase e := by
    intro x hx hnx
    have hne : x ≠ e := fun h => hnx (h ▸ hv)
    exact (List.mem_erase_of_ne hne).2 hx
  refine ⟨?_, hinv.invB, ?_, ?_, hinv.invH, hinv.invHu, ?_, ?_, ?_⟩
  · intro x hx
    exact hinv.invA x (hsub x hx)
  · intro v d hvd hnv
    obtain ⟨x, hx, h1, h2⟩ := hinv.invC v d hvd hnv
    exact ⟨x, hkeep x hx (h1.symm ▸ hnv), h1, h2⟩
  · intro x hx
    exact hinv.invD x (hsub x hx)
  · intro u hu d hd x hx
    exact hinv.invM u hu d hd x (hsub x hx)
  · intro x hx
    exact hinv.invU x (hsub x hx)
  · intro q hq
    obtain ⟨j, hj, hnm, x, hx, h1, h2⟩ := hinv.invG q hq
    exact ⟨j, hj, hnm, x, hkeep x hx (h1.symm ▸ hnm), h1, h2⟩

theorem inv_go (adj : AdjList) (src dst : Nat) (pq : List Ent)
    (visited : List Nat) (dist : List (Nat × Nat)) (e : Ent) (pq' : List Ent)
    (hinv : LoopInv adj src dst pq visited dist)
    (hpop : popMin pq = some (e, pq')) (hv : e.2.1 ∉ visited) (hdne : e.2.1 ≠ dst) :
    LoopInv adj src dst
      (pushLoop (e.2.1 :: visited) e.1 (e.2.2 ++ [e.2.1]) (succList adj e.2.1) pq' dist).1
      (e.2.1 :: visited)
      (pushLoop (e.2.1 :: visited) e.1 (e.2.2 ++ [e.2.1]) (succList adj e.2.1) pq' dist).2 := by
  obtain ⟨hmem, hrest, hmin⟩ := popMin_eq_some pq e pq' hpop
  subst hrest
  -- abbreviations
  set n := e.2.1 with hn
  set c := e.1 with hc
  set p' := e.2.2 ++ [e.2.1] with hp'
  set nbrs := succList adj e.2.1 with hnbrs
  set vis' := e.2.1 :: visited with hvis'
  have hsub : ∀ x ∈ pq.erase e, x ∈ pq := fun x hx => List.mem_of_mem_erase hx
  have hkeep : ∀ x ∈ pq, x.2.1 ∉ vis' → x ∈ pq.erase e := by
    intro x hx hnx
    have hne : x ≠ e := by
      intro h
      subst h
      exact hnx (by simp [hvis'])
    exact (List.mem_erase_of_ne hne).2 hx
  -- the popped entry carries the exact recorded distance of its node
  have hkey : aget dist n = some c := by
    obtain ⟨d0, hd0, hd0le⟩ := hinv.invD e hmem
    obtain ⟨ew, hew, hewn, hewc⟩ := hinv.invC n d0 hd0 hv
    have := hmin ew hew
    have heq : d0 = c := by omega
    rw [heq] at hd0
    exact hd0
  have hfrozen := pushLoop_dist_frozen vis' c p' nbrs (pq.erase e) dist
  have hmono := pushLoop_dist_mono vis' c p' nbrs (pq.erase e) dist
  have hpqsub := pushLoop_pq_sub vis' c p' nbrs (pq.erase e) dist
  have hpersist := pushLoop_pq_persist vis' c p' nbrs (pq.erase e) dist
  have hcover := pushLoop_cover vis' c p' nbrs (pq.erase e) dist
  have hnvis' : n ∈ vis' := by simp [hvis']
  -- the new invH, needed both as a field and for the invG chain
  have hinvH' : ∀ u ∈ vis', ∀ v ∈ (succList adj u).map (fun nb => nb.1),
      ∃ du dv, aget (pushLoop vis' c p' nbrs (pq.erase e) dist).2 u = some du ∧
        aget (pushLoop vis' c p' nbrs (pq.erase e) dist).2 v = some dv ∧ dv ≤ du + 1 := by
    intro u hu v hvsucc
    rcases List.mem_cons.1 hu with rfl | huv
    · -- u is the freshly visited node
      have hdu : aget (pushLoop vis' c p' nbrs (pq.erase e) dist).2 n = some c := by
        rw [hfrozen n hnvis']
        exact hkey
      by_cases hvv : v ∈ vis'
      · rcases List.mem_cons.1 hvv with rfl | hvv2
        · exact ⟨c, c, hdu, hdu, by omega⟩
        · have hvs := hinv.invHu v hvv2
          cases hvd : aget dist v with
          | none => rw [hvd] at hvs; simp at hvs
          | some dv0 =>
            have hdvle : dv0 ≤ c := hinv.invM v hvv2 dv0 hvd e hmem
            refine ⟨c, dv0, hdu, ?_, by omega⟩
            rw [hfrozen v hvv]
            exact hvd
      · obtain ⟨dv, hdv, hdvle⟩ := hcover v hvsucc hvv
        exact ⟨c, dv, hdu, hdv, by omega⟩
    · -- u was already visited before this step
      obtain ⟨du, dv, hdu, hdv, hle⟩ := hinv.invH u huv v hvsucc
      obtain ⟨dv', hdv', hdv'le⟩ := hmono v dv hdv
      refine ⟨du, dv', ?_, hdv', by omega⟩
      rw [hfrozen u (by simp [hvis', huv])]
      exact hdu
  refine ⟨?_, ?_, ?_, ?_, hinvH', ?_, ?_, ?_, ?_⟩
  · -- invA
    intro x hx
    rcases hpqsub x hx with h | h
    · exact hinv.invA x (hsub x h)
    · obtain ⟨hx1, hx2, hx3, _⟩ := h
      obtain ⟨hpath, hlen⟩ := hinv.invA e hmem
      have hedge : edgeB adj n x.2.1 = true := (edgeB_iff_mem_succ adj n x.2.1).2 hx3
      constructor
      · rw [hx2]
        exact path_snoc adj src n x.2.1 p' hpath hedge
      · rw [hx2, hx1]
        simp [hp']
        omega
  · -- invB
    intro h
    rcases List.mem_cons.1 h with h2 | h2
    · exact hdne h2.symm
    · exact hinv.invB h2
  · -- invC
    refine pushLoop_invC vis' c p' nbrs (pq.erase e) dist ?_
    intro v d hvd hnv
    have hnv2 : v ∉ visited := fun h => hnv (by simp [hvis', h])
    obtain ⟨x, hx, h1, h2⟩ := hinv.invC v d hvd hnv2
    exact ⟨x, hkeep x hx (h1.symm ▸ hnv), h1, h2⟩
  · -- invD
    refine pushLoop_invD vis' c p' nbrs (pq.erase e) dist ?_
    intro x hx
    exact hinv.invD x (hsub x hx)
  · -- invHu
    intro u hu
    rcases List.mem_cons.1 hu with rfl | huv
    · rw [hfrozen n hnvis', hkey]
      rfl
    · rw [hfrozen u (by simp [hvis', huv])]
      exact hinv.invHu u huv
  · -- invM
    intro u hu d hd x hx
    have hdu : aget dist u = some d := by
      rw [← hfrozen u hu]
      exact hd
    have hdux : d ≤ c := by
      rcases List.mem_cons.1 hu with rfl | huv
      · rw [hkey] at hdu
        injection hdu with h2
        omega
      · exact hinv.invM u huv d hdu e hmem
    rcases hpqsub x hx with h | h
    · rcases List.mem_cons.1 hu with rfl | huv
      · have := hmin x (hsub x h)
        omega
      · exact hinv.invM u huv d hdu x (hsub x h)
    · rw [h.1]
      omega
  · -- invU
    intro x hx
    rcases hpqsub x hx with h | h
    · exact hinv.invU x (hsub x h)
    · exact succ_mem_allNodes adj n x.2.1 h.2.2.1
  · -- invG
    intro q hq
    obtain ⟨j, hj, hnm, ew, hew, hewn, hewc⟩ := hinv.invG q hq
    by_cases hjn : q.getD j 0 = n
    · -- the witness node is the one being visited now: walk forward along q
      have hcle : c ≤ j := by
        have := hmin ew hew
        omega
      have hlen1 : 0 < q.length := by
        obtain ⟨hne, _, _, _⟩ := hq
        exact List.length_pos.2 hne
      have hlast : q.getD (q.length - 1) 0 = dst := path_last_getD adj src dst q hq
      have hjm : j < q.length - 1 := by
        have : j ≠ q.length - 1 := by
          intro h
          rw [h, hlast] at hjn
          exact hdne hjn.symm
        omega
      have hdstnv : dst ∉ vis' := by
        intro h
        rcases List.mem_cons.1 h with h2 | h2
        · exact hdne h2.symm
        · exact hinv.invB h2
      have hex : ∃ i, j < i ∧ i < q.length ∧ q.getD i 0 ∉ vis' := by
        refine ⟨q.length - 1, hjm, by omega, ?_⟩
        rw [hlast]
        exact hdstnv
      classical
      let i := Nat.find hex
      obtain ⟨hji, hilen, hinv'⟩ : j < i ∧ i < q.length ∧ q.getD i 0 ∉ vis' :=
        Nat.find_spec hex
      have hminI : ∀ k, k < i → ¬(j < k ∧ k < q.length ∧ q.getD k 0 ∉ vis') :=
        fun k hk => Nat.find_min hex hk
      have hchainvis : ∀ k, j ≤ k → k < i → q.getD k 0 ∈ vis' := by
        intro k hjk hki
        rcases Nat.eq_or_lt_of_le hjk with rfl | hjk2
        · rw [hjn]
          exact hnvis'
        · by_contra hcon
          exact hminI k hki ⟨hjk2, by omega, hcon⟩
      have hchainD : ∀ t, j + t ≤ i →
          ∃ dk, aget (pushLoop vis' c p' nbrs (pq.erase e) dist).2 (q.getD (j + t) 0) =
            some dk ∧ dk ≤ j + t := by
        intro t
        induction t with
        | zero =>
          intro _
          refine ⟨c, ?_, by omega⟩
          simp only [Nat.add_zero, hjn]
          rw [hfrozen n hnvis']
          exact hkey
        | succ t2 ih =>
          intro hti
          obtain ⟨dk, hdk, hdkle⟩ := ih (by omega)
          have hkvis : q.getD (j + t2) 0 ∈ vis' := hchainvis (j + t2) (by omega) (by omega)
          have hstep : edgeB adj (q.getD (j + t2) 0) (q.getD (j + t2 + 1) 0) = true :=
            path_step adj src dst q hq (j + t2) (by omega)
          have hsucc := (edgeB_iff_mem_succ adj (q.getD (j + t2) 0) (q.getD (j + t2 + 1) 0)).1 hstep
          obtain ⟨du, dv, hdu, hdv, hle⟩ := hinvH' (q.getD (j + t2) 0) hkvis
            (q.getD (j + t2 + 1) 0) hsucc
          rw [hdk] at hdu
          injection hdu with hdu2
          subst hdu2
          refine ⟨dv, ?_, by omega⟩
          have : j + (t2 + 1) = j + t2 + 1 := by omega
          rw [this]
          exact hdv
      obtain ⟨di, hdi, hdile⟩ := hchainD (i - j) (by omega)
      have hieq : j + (i - j) = i := by omega
      rw [hieq] at hdi
      have hC := pushLoop_invC vis' c p' nbrs (pq.erase e) dist (by
        intro v d hvd hnv
        have hnv2 : v ∉ visited := fun h => hnv (by simp [hvis', h])
        obtain ⟨x, hx, h1, h2⟩ := hinv.invC v d hvd hnv2
        exact ⟨x, hkeep x hx (h1.symm ▸ hnv), h1, h2⟩)
      obtain ⟨x, hx, hxn, hxc⟩ := hC (q.getD i 0) di hdi hinv'
      exact ⟨i, hilen, hinv', x, hx, hxn, by omega⟩
    · -- the old witness survives untouched
      have hnm' : q.getD j 0 ∉ vis' := by
        intro h
        rcases List.mem_cons.1 h with h2 | h2
        · exact hjn h2
        · exact hnm h2
      have hewkeep : ew ∈ pq.erase e := hkeep ew hew (by rw [hewn]; exact hnm')
      exact ⟨j, hj, hnm', ew, hpersist ew hewkeep, hewn, hewc⟩

theorem loop_main (adj : AdjList) (src dst : Nat) (hdst : acontains adj dst = true) :
    ∀ fuel pq visited dist, LoopInv adj src dst pq visited dist →
      unvisCount adj visited * (totalAdj adj + 1) + pq.length < fuel →
      ∃ r, loopF adj dst fuel pq visited dist = some r ∧
        (r = [] → ∀ q, ¬ IsPath adj src dst q) ∧
        (r ≠ [] → IsPath adj src dst r ∧ (∀ x ∈ r, acontains adj x = true) ∧
          ∀ q, IsPath adj src dst q → r.length ≤ q.length) := by
  intro fuel
  induction fuel with
  | zero =>
    intro pq visited dist _ hfuel
    omega
  | succ fuel ih =>
    intro pq visited dist hinv hfuel
    cases hpop : popMin pq with
    | none =>
      refine ⟨[], loopF_succ_empty adj dst fuel pq visited dist hpop, ?_, ?_⟩
      · intro _ q hq
        obtain ⟨j, hj, hnm, x, hx, h1, h2⟩ := hinv.invG q hq
        rw [popMin_none pq hpop] at hx
        simp at hx
      · intro h
        exact absurd rfl h
    | some pr =>
      obtain ⟨e, pq'⟩ := pr
      obtain ⟨hmem, hrest, hmin⟩ := popMin_eq_some pq e pq' hpop
      by_cases hv : e.2.1 ∈ visited
      · -- already-visited entry: skip
        rw [loopF_succ_skip adj dst fuel pq visited dist e pq' hpop hv]
        refine ih pq' visited dist (inv_skip adj src dst pq visited dist e pq' hinv hpop hv) ?_
        have hlen : pq'.length = pq.length - 1 := by
          rw [hrest]
          exact List.length_erase_of_mem hmem
        have hpos : 0 < pq.length := List.length_pos.2 (by
          intro h
          rw [h] at hmem
          simp at hmem)
        omega
      · by_cases hdne : e.2.1 = dst
        · -- destination popped: return the accumulated path
          rw [loopF_succ_ret adj dst fuel pq visited dist e pq' hpop hv hdne]
          obtain ⟨hpath, hlen⟩ := hinv.invA e hmem
          rw [hdne] at hpath ⊢
          have hne : e.2.2 ++ [dst] ≠ [] := by simp
          refine ⟨e.2.2 ++ [dst], rfl, fun h => absurd h hne, fun _ => ⟨hpath, ?_, ?_⟩⟩
          · exact path_mem_keys adj src dst (e.2.2 ++ [dst]) hpath hdst
          · intro q hq
            obtain ⟨j, hj, hnm, x, hx, h1, h2⟩ := hinv.invG q hq
            have h3 := hmin x hx
            have h4 : (e.2.2 ++ [dst]).length = e.1 + 1 := by
              simp
              omega
            omega
        · -- interior node: relax its neighbors and continue
          rw [loopF_succ_go adj dst fuel pq visited dist e pq' hpop hv hdne]
          refine ih _ _ _ (inv_go adj src dst pq visited dist e pq' hinv hpop hv hdne) ?_
          have hU := unvisCount_lt adj visited e.2.1 (hinv.invU e hmem) hv
          have hL := pushLoop_length (e.2.1 :: visited) e.1 (e.2.2 ++ [e.2.1])
            (succList adj e.2.1) pq' dist
          have hSL := succList_length_le adj e.2.1
          have hlen : pq'.length = pq.length - 1 := by
            rw [hrest]
            exact List.length_erase_of_mem hmem
          have hpos : 0 < pq.length := List.length_pos.2 (by
            intro h
            rw [h] at hmem
            simp at hmem)
          -- linearize the products
          have hUpos : 0 < unvisCount adj visited := by omega
          have hmul : unvisCount adj (e.2.1 :: visited) * (totalAdj adj + 1) ≤
              (unvisCount adj visited - 1) * (totalAdj adj + 1) :=
            Nat.mul_le_mul_right _ (by omega)
          have hmul2 : (unvisCount adj visited - 1) * (totalAdj adj + 1) + (totalAdj adj + 1) =
              unvisCount adj visited * (totalAdj adj + 1) := by
            have h5 : unvisCount adj visited - 1 + 1 = unvisCount adj visited := by omega
            calc (unvisCount adj visited - 1) * (totalAdj adj + 1) + (totalAdj adj + 1)
                = (unvisCount adj visited - 1 + 1) * (totalAdj adj + 1) := by
                  rw [Nat.succ_mul]
              _ = unvisCount adj visited * (totalAdj adj + 1) := by rw [h5]
          omega

/-- The invariant holds at the loop entry state of `dijkstra`. -/
theorem inv_init (adj : AdjList) (src dst : Nat) (hsrc : acontains adj src = true)
    (hdst : dst ∉ ([] : List Nat)) :
    LoopInv adj src dst [(0, src, [])] [] [(src, 0)] := by
  refine ⟨?_, hdst, ?_, ?_, ?_, ?_, ?_, ?_, ?_⟩
  · intro e he
    rcases List.mem_singleton.1 he with rfl
    exact ⟨⟨by simp, by simp, by simp, List.chain'_singleton src⟩, by simp⟩
  · intro v d hvd _
    unfold aget at hvd
    by_cases h : src = v
    · subst h
      simp at hvd
      exact ⟨(0, src, []), by simp, rfl, by omega⟩
    · simp [h, aget] at hvd
  · intro e he
    rcases List.mem_singleton.1 he with rfl
    exact ⟨0, by simp [aget], by omega⟩
  · intro u hu
    simp at hu
  · intro u hu
    simp at hu
  · intro u hu
    simp at hu
  · intro e he
    rcases List.mem_singleton.1 he with rfl
    unfold allNodes
    rw [List.mem_dedup]
    refine List.mem_append.2 (Or.inl ?_)
    rw [akeys_mem]
    unfold acontains at hsrc
    simpa using hsrc
  · intro q hq
    refine ⟨0, ?_, by simp, (0, src, []), by simp, ?_, by omega⟩
    · obtain ⟨hne, _, _, _⟩ := hq
      exact List.length_pos.2 hne
    · exact (path_head_getD adj src dst q hq).symm

theorem unvisCount_nil (adj : AdjList) : unvisCount adj [] = (allNodes adj).length := by
  unfold unvisCount
  have : ∀ l : List Nat, (l.filter (fun x => decide (x ∉ ([] : List Nat)))).length = l.length := by
    intro l
    induction l with
    | nil => simp
    | cons a t ih => simp [ih]
  exact this (allNodes adj)

/-- C1: for every adjacency graph and pair of switch dpids, if `src` and `dst`
are both present and connected, `dijkstra src dst` returns a sequence of dpids
all present in the adjacency list, pairwise joined by directed edges, starting
at `src`, ending at `dst`, of minimal hop count; if `src` or `dst` is absent
from the adjacency list or no connecting path exists it returns `[]`. -/
theorem dijkstra_correct (adj : AdjList) (src dst : Nat) :
    (acontains adj src = true → acontains adj dst = true →
      ∀ q, IsPath adj src dst q →
        IsPath adj src dst (dijkstra adj src dst) ∧
        (∀ x ∈ dijkstra adj src dst, acontains adj x = true) ∧
        (dijkstra adj src dst).length ≤ q.length) ∧
    ((acontains adj src = false ∨ acontains adj dst = false ∨
      (∀ q, ¬ IsPath adj src dst q)) → dijkstra adj src dst = []) := by
  constructor
  · intro hsrc hdst q hq
    obtain ⟨r, heq, hempty, hnonempty⟩ := loop_main adj src dst hdst (dijkstraFuel adj)
      [(0, src, [])] [] [(src, 0)] (inv_init adj src dst hsrc (by simp)) (by
        rw [unvisCount_nil]
        unfold dijkstraFuel
        simp)
    have hd : dijkstra adj src dst = r := by
      unfold dijkstra
      rw [hsrc, hdst]
      simp [heq]
    by_cases hre : r = []
    · exact absurd hq (hempty hre q)
    · obtain ⟨h1, h2, h3⟩ := hnonempty hre
      rw [hd]
      exact ⟨h1, h2, h3 q hq⟩
  · intro hcase
    rcases hcase with h | h | h
    · unfold dijkstra
      rw [h]
      simp
    · unfold dijkstra
      rw [h]
      simp
    · by_cases hsrc : acontains adj src = true
      · by_cases hdst : acontains adj dst = true
        · obtain ⟨r, heq, hempty, hnonempty⟩ := loop_main adj src dst hdst (dijkstraFuel adj)
            [(0, src, [])] [] [(src, 0)] (inv_init adj src dst hsrc (by simp)) (by
              rw [unvisCount_nil]
              unfold dijkstraFuel
              simp)
          have hd : dijkstra adj src dst = r := by
            unfold dijkstra
            rw [hsrc, hdst]
            simp [heq]
          by_cases hre : r = []
          · rw [hd, hre]
          · obtain ⟨h1, _, _⟩ := hnonempty hre
            exact absurd h1 (h r)
        · unfold dijkstra
          have hdf : acontains adj dst = false := by
            cases hb : acontains adj dst
            · rfl
            · exact absurd hb hdst
          rw [hsrc, hdf]
          simp
      · unfold dijkstra
        have hsf : acontains adj src = false := by
          cases hb : acontains adj src
          · rfl
          · exact absurd hb hsrc
        rw [hsf]
        simp

/-- Witness for C1 at a concrete graph: a connected pair yields a valid
shortest path, and a missing endpoint yields `[]`. -/
theorem dijkstra_correct_witness :
    (IsPath [(1, [(2, 10)]), (2, [(1, 11), (3, 12)]), (3, [(2, 13)])] 1 3
        (dijkstra [(1, [(2, 10)]), (2, [(1, 11), (3, 12)]), (3, [(2, 13)])] 1 3) ∧
      (∀ x ∈ dijkstra [(1, [(2, 10)]), (2, [(1, 11), (3, 12)]), (3, [(2, 13)])] 1 3,
        acontains [(1, [(2, 10)]), (2, [(1, 11), (3, 12)]), (3, [(2, 13)])] x = true) ∧
      (dijkstra [(1, [(2, 10)]), (2, [(1, 11), (3, 12)]), (3, [(2, 13)])] 1 3).length ≤ 3) ∧
    dijkstra [(1, [(2, 10)])] 1 5 = [] := by
  constructor
  · have h := (dijkstra_correct [(1, [(2, 10)]), (2, [(1, 11), (3, 12)]), (3, [(2, 13)])] 1 3).1
      (by decide) (by decide) [1, 2, 3] (by decide)
    exact ⟨h.1, h.2.1, h.2.2⟩
  · exact (dijkstra_correct [(1, [(2, 10)])] 1 5).2 (Or.inr (Or.inl (by decide)))

example : dijkstra [(1, [(2, 10)]), (2, [(1, 11), (3, 12)]), (3, [(2, 13)])] 1 3 = [1, 2, 3] := by
  rfl

theorem aget_append_some {α β : Type} [DecidableEq α] (m1 m2 : List (α × β)) (k : α) (v : β)
    (h : aget m1 k = some v) : aget (m1 ++ m2) k = some v := by
  induction m1 with
  | nil => simp [aget] at h
  | cons hd t ih =>
    obtain ⟨k', v'⟩ := hd
    by_cases hk : k' = k
    · simp [aget, hk] at h ⊢
      exact h
    · simp [aget, hk] at h ⊢
      exact ih h

theorem aget_append_none {α β : Type} [DecidableEq α] (m1 m2 : List (α × β)) (k : α)
    (h : aget m1 k = none) : aget (m1 ++ m2) k = aget m2 k := by
  induction m1 with
  | nil => simp
  | cons hd t ih =>
    obtain ⟨k', v'⟩ := hd
    by_cases hk : k' = k
    · simp [aget, hk] at h
    · simp [aget, hk] at h ⊢
      exact ih h

theorem aget_adel_self_nodup {α β : Type} [DecidableEq α] (m : List (α × β)) (k : α)
    (hnd : (m.map (fun kv => kv.1)).Nodup) : aget (adel m k) k = none := by
  induction m with
  | nil => simp [adel, aget]
  | cons hd t ih =>
    obtain ⟨k', v'⟩ := hd
    simp only [List.map, List.nodup_cons] at hnd
    by_cases hk : k' = k
    · subst hk
      have hdel : adel ((k', v') :: t) k' = t := by simp [adel]
      rw [hdel]
      cases h : aget t k' with
      | none => rfl
      | some v =>
        exact absurd ((akeys_mem t k').2 (by simp [h])) hnd.1
    · simp only [adel, if_neg hk, aget, if_neg hk]
      exact ih hnd.2

/-- The mutable controller state of `router.py`: its module-level dictionaries,
each embedded as an insertion-ordered association list. -/
structure NetState where
  adjacency : AdjList
  path_table : List ((String × String) × List Nat)
  host_to_switch : List (String × Nat)
  mac_to_port : List (String × (Nat × Nat))
  ip_to_mac : List (String × String)
  ip_to_name : List (String × String)
  dpid_to_name : List (Nat × String)
  switch_last_seen : List (Nat × Nat)
deriving DecidableEq

/-- A POX `LinkEvent`: the two dpids, the two ports, and the `added`/`removed`
flags of the event. -/
structure LinkEv where
  dpid1 : Nat
  dpid2 : Nat
  port1 : Nat
  port2 : Nat
  added : Bool
  removed : Bool
deriving DecidableEq

/-- `adjacency_list[a][b] = p` on the defaultdict. -/
def addEdge (adj : AdjList) (a b p : Nat) : AdjList :=
  let g := dGet adj a
  aset g.1 a (aset g.2 b p)

/-- `if b in adjacency_list[a]: del adjacency_list[a][b]` on the defaultdict. -/
def delEdge (adj : AdjList) (a b : Nat) : AdjList :=
  let g := dGet adj a
  if acontains g.2 b then aset g.1 a (adel g.2 b) else g.1

/-- `_handle_LinkEvent` (router.py lines 499-539): on `added`, insert both
directed edges, name the endpoint switches if unnamed, and clear the path
cache; on `removed`, delete both directed edges if present and clear the path
cache; otherwise do nothing. -/
def handleLinkEvent (s : NetState) (ev : LinkEv) : NetState :=
  if ev.added then
    let adj2 := addEdge (addEdge s.adjacency ev.dpid1 ev.dpid2 ev.port1)
      ev.dpid2 ev.dpid1 ev.port2
    let names1 := if acontains s.dpid_to_name ev.dpid1 then s.dpid_to_name
      else s.dpid_to_name ++ [(ev.dpid1, "s" ++ toString ev.dpid1)]
    let names2 := if acontains names1 ev.dpid2 then names1
      else names1 ++ [(ev.dpid2, "s" ++ toString ev.dpid2)]
    { s with adjacency := adj2, dpid_to_name := names2, path_table := [] }
  else if ev.removed then
    let adj2 := delEdge (delEdge s.adjacency ev.dpid1 ev.dpid2) ev.dpid2 ev.dpid1
    { s with adjacency := adj2, path_table := [] }
  else s

/-- CPython equality between an `int` and a `str`: `int.__eq__` and
`str.__eq__` both return `NotImplemented` for the other type and there is no
implicit coercion, so `==` (and hence tuple membership `in`) is always
`False` between them. -/
def pyEqNatStr (_d : Nat) (_s : String) : Bool := false

/-- Python `event.dpid in path` where `path` ranges over the keys of
`path_table`, which are `(src_ip, dst_ip)` *string* tuples: tuple membership
tests `==` against each component. -/
def pyIntInStrPair (d : Nat) (k : String × String) : Bool :=
  pyEqNatStr d k.1 || pyEqNatStr d k.2

/-- `_handle_ConnectionUp` (router.py lines 214-233): record the switch as
seen and delete every `path_table` entry whose *key* contains the dpid (the
ICMP flow-mod it sends to the switch is I/O and touches no controller state). -/
def handleConnectionUp (s : NetState) (dpid tnow : Nat) : NetState :=
  { s with
    switch_last_seen := aset s.switch_last_seen dpid tnow
    path_table := s.path_table.filter (fun kv => !(pyIntInStrPair dpid kv.1)) }

/-- The port stored for directed edge `a → b`, if any. -/
def edgeLookup (adj : AdjList) (a b : Nat) : Option Nat :=
  match aget adj a with
  | none => none
  | some m => aget m b

theorem edgeB_eq_isSome (adj : AdjList) (a b : Nat) :
    edgeB adj a b = (edgeLookup adj a b).isSome := by
  unfold edgeB edgeLookup acontains succList
  cases aget adj a with
  | none => simp [aget]
  | some m => simp

theorem edgeLookup_append_empty (adj : AdjList) (k a b : Nat) :
    edgeLookup (adj ++ [(k, [])]) a b = edgeLookup adj a b := by
  unfold edgeLookup
  cases h : aget adj a with
  | none =>
    rw [aget_append_none adj [(k, [])] a h]
    by_cases hk : k = a
    · simp [aget, hk]
    · simp [aget, hk]
  | some m => rw [aget_append_some adj [(k, [])] a m h]

theorem dGet_present {α β : Type} [DecidableEq α] (m : List (α × List β)) (k : α) (v : List β)
    (h : aget m k = some v) : dGet m k = (m, v) := by
  unfold dGet
  rw [h]

theorem dGet_absent {α β : Type} [DecidableEq α] (m : List (α × List β)) (k : α)
    (h : aget m k = none) : dGet m k = (m ++ [(k, [])], []) := by
  unfold dGet
  rw [h]

theorem aget_addEdge_self (adj : AdjList) (a b p : Nat) :
    aget (addEdge adj a b p) a = some (aset ((aget adj a).getD []) b p) := by
  unfold addEdge
  cases h : aget adj a with
  | none =>
    rw [dGet_absent adj a h]
    simp [aget_aset_self]
  | some m =>
    rw [dGet_present adj a m h]
    simp [aget_aset_self]

theorem aget_addEdge_ne (adj : AdjList) (a b p x : Nat) (hx : x ≠ a) :
    aget (addEdge adj a b p) x = aget adj x := by
  unfold addEdge
  cases h : aget adj a with
  | none =>
    rw [dGet_absent adj a h]
    simp only
    rw [aget_aset_ne _ a x _ (Ne.symm hx)]
    cases h2 : aget adj x with
    | none =>
      rw [aget_append_none adj [(a, [])] x h2]
      simp [aget, Ne.symm hx]
    | some v => rw [aget_append_some adj [(a, [])] x v h2]
  | some m =>
    rw [dGet_present adj a m h]
    simp only
    rw [aget_aset_ne adj a x _ (Ne.symm hx)]

theorem addEdge_of_aget (adj : AdjList) (a b p : Nat) (m : List (Nat × Nat))
    (h : aget adj a = some m) : addEdge adj a b p = aset adj a (aset m b p) := by
  unfold addEdge
  rw [dGet_present adj a m h]

theorem delEdge_absent (adj : AdjList) (a b : Nat) (h : edgeB adj a b = false) :
    delEdge adj a b = (dGet adj a).1 := by
  unfold delEdge
  unfold edgeB succList at h
  cases h2 : aget adj a with
  | none =>
    rw [dGet_absent adj a h2]
    simp only
    rw [if_neg]
    simp [acontains, aget]
  | some m =>
    rw [dGet_present adj a m h2]
    simp only
    rw [h2] at h
    simp only [Option.getD_some] at h
    rw [if_neg (by simp [h])]

/-- C5 (code_bug): the "clear any stale paths involving this switch" loop of
`_handle_ConnectionUp` never removes anything: the membership test
`event.dpid in path` compares the integer dpid against the two IP *strings*
of the cache key, which is always false in Python, so the path cache is
returned unchanged for every state — including states whose cached switch
sequences contain the dpid. -/
theorem c5_connectionUp_path_cache_bug :
    (∀ s dpid tnow, (handleConnectionUp s dpid tnow).path_table = s.path_table) ∧
    (handleConnectionUp
      { adjacency := [], path_table := [(("10.0.0.1", "10.0.0.3"), [1, 2, 3])],
        host_to_switch := [], mac_to_port := [], ip_to_mac := [], ip_to_name := [],
        dpid_to_name := [], switch_last_seen := [] } 2 100).path_table =
      [(("10.0.0.1", "10.0.0.3"), [1, 2, 3])] := by
  constructor
  · intro s dpid tnow
    unfold handleConnectionUp
    simp [pyIntInStrPair, pyEqNatStr]
  · rfl

/-- The deletion loop of `_handle_ConnectionDown`: for each neighbor in the
snapshot of `adjacency_list[dpid].keys()`, if the neighbor is a key of the
adjacency list, run `del adjacency_list[neighbor][dpid]`, which raises
`KeyError` (`none`) when the entry is absent. -/
def foldDel (dpid : Nat) : AdjList → List Nat → Option AdjList
  | adj, [] => some adj
  | adj, nb :: rest =>
    match aget adj nb with
    | none => foldDel dpid adj rest
    | some m =>
      if acontains m dpid then foldDel dpid (aset adj nb (adel m dpid)) rest
      else none

theorem edgeLookup_dGet_fst (adj : AdjList) (k x y : Nat) :
    edgeLookup ((dGet adj k).1) x y = edgeLookup adj x y := by
  cases h : aget adj k with
  | none =>
    rw [dGet_absent adj k h]
    exact edgeLookup_append_empty adj k x y
  | some m => rw [dGet_present adj k m h]

theorem addEdge_twice (A : AdjList) (d1 d2 p1 p2 : Nat) :
    addEdge (addEdge (addEdge (addEdge A d1 d2 p1) d2 d1 p2) d1 d2 p1) d2 d1 p2 =
      addEdge (addEdge A d1 d2 p1) d2 d1 p2 := by
  by_cases hne : d1 = d2
  · subst hne
    have hBd : aget (addEdge A d1 d1 p1) d1 =
        some (aset ((aget A d1).getD []) d1 p1) := aget_addEdge_self A d1 d1 p1
    have hA1eq : addEdge (addEdge A d1 d1 p1) d1 d1 p2 =
        aset (addEdge A d1 d1 p1) d1 (aset ((aget A d1).getD []) d1 p2) := by
      rw [addEdge_of_aget _ d1 d1 p2 _ hBd, aset_aset_same]
    have hA1d : aget (addEdge (addEdge A d1 d1 p1) d1 d1 p2) d1 =
        some (aset ((aget A d1).getD []) d1 p2) := by
      rw [hA1eq]
      exact aget_aset_self _ d1 _
    rw [addEdge_of_aget _ d1 d1 p1 _ hA1d, aset_aset_same]
    have hCd : aget (aset (addEdge (addEdge A d1 d1 p1) d1 d1 p2) d1
        (aset ((aget A d1).getD []) d1 p1)) d1 =
        some (aset ((aget A d1).getD []) d1 p1) := aget_aset_self _ d1 _
    rw [addEdge_of_aget _ d1 d1 p2 _ hCd, aset_aset_same, aset_aset_same]
    exact aset_eq_of_aget _ d1 _ hA1d
  · have hA1d1 : aget (addEdge (addEdge A d1 d2 p1) d2 d1 p2) d1 =
        some (aset ((aget A d1).getD []) d2 p1) := by
      rw [aget_addEdge_ne (addEdge A d1 d2 p1) d2 d1 p2 d1 hne]
      exact aget_addEdge_self A d1 d2 p1
    have step1 : addEdge (addEdge (addEdge A d1 d2 p1) d2 d1 p2) d1 d2 p1 =
        addEdge (addEdge A d1 d2 p1) d2 d1 p2 := by
      rw [addEdge_of_aget _ d1 d2 p1 _ hA1d1, aset_aset_same]
      exact aset_eq_of_aget _ d1 _ hA1d1
    have hA1d2 : aget (addEdge (addEdge A d1 d2 p1) d2 d1 p2) d2 =
        some (aset ((aget (addEdge A d1 d2 p1) d2).getD []) d1 p2) :=
      aget_addEdge_self (addEdge A d1 d2 p1) d2 d1 p2
    have step2 : addEdge (addEdge (addEdge A d1 d2 p1) d2 d1 p2) d2 d1 p2 =
        addEdge (addEdge A d1 d2 p1) d2 d1 p2 := by
      rw [addEdge_of_aget _ d2 d1 p2 _ hA1d2, aset_aset_same]
      exact aset_eq_of_aget _ d2 _ hA1d2
    rw [step1, step2]

/-- Concrete state for C7: a nonempty path cache and an empty adjacency list. -/
def c7state : NetState :=
  ⟨[], [(("10.0.0.1", "10.0.0.2"), [1, 2])], [], [], [], [], [], []⟩

/-- A link-removed event for an edge absent from the adjacency list. -/
def c7ev : LinkEv := ⟨1, 2, 0, 0, false, true⟩

/-- C7 counterexample: a link-removed event for an edge absent from the
adjacency list is not a no-op — it clears the nonempty path cache (and
creates empty defaultdict rows for the endpoints), so the controller state is
not identical to the state before the event. -/
theorem c7_counterexample :
    edgeB c7state.adjacency 1 2 = false ∧ edgeB c7state.adjacency 2 1 = false ∧
      handleLinkEvent c7state c7ev ≠ c7state := by
  decide

/-- C7 amended: processing the same link-added event twice leaves the
adjacency graph identical to processing it once; processing a link-removed
event for an edge absent in both directions leaves every stored edge
unchanged (it may create empty adjacency rows for the two endpoints) and every
other state component untouched, except that the path cache is cleared. -/
theorem c7_link_events_amended :
    (∀ (s : NetState) (ev : LinkEv), ev.added = true →
      (handleLinkEvent (handleLinkEvent s ev) ev).adjacency =
        (handleLinkEvent s ev).adjacency) ∧
    (∀ (s : NetState) (ev : LinkEv), ev.added = false → ev.removed = true →
      edgeB s.adjacency ev.dpid1 ev.dpid2 = false →
      edgeB s.adjacency ev.dpid2 ev.dpid1 = false →
      (handleLinkEvent s ev).path_table = [] ∧
      (∀ a b, edgeLookup (handleLinkEvent s ev).adjacency a b =
        edgeLookup s.adjacency a b) ∧
      (handleLinkEvent s ev).host_to_switch = s.host_to_switch ∧
      (handleLinkEvent s ev).mac_to_port = s.mac_to_port ∧
      (handleLinkEvent s ev).ip_to_mac = s.ip_to_mac ∧
      (handleLinkEvent s ev).ip_to_name = s.ip_to_name ∧
      (handleLinkEvent s ev).dpid_to_name = s.dpid_to_name ∧
      (handleLinkEvent s ev).switch_last_seen = s.switch_last_seen) := by
  constructor
  · intro s ev hadd
    simp only [handleLinkEvent, hadd, if_true]
    exact addEdge_twice s.adjacency ev.dpid1 ev.dpid2 ev.port1 ev.port2
  · intro s ev hadd hrem h12 h21
    have hunfold : handleLinkEvent s ev =
        { s with
          adjacency := delEdge (delEdge s.adjacency ev.dpid1 ev.dpid2) ev.dpid2 ev.dpid1
          path_table := [] } := by
      simp [handleLinkEvent, hadd, hrem]
    rw [hunfold]
    refine ⟨rfl, ?_, rfl, rfl, rfl, rfl, rfl, rfl⟩
    intro a b
    have h1 : delEdge s.adjacency ev.dpid1 ev.dpid2 = (dGet s.adjacency ev.dpid1).1 :=
      delEdge_absent s.adjacency ev.dpid1 ev.dpid2 h12
    have h21' : edgeB (delEdge s.adjacency ev.dpid1 ev.dpid2) ev.dpid2 ev.dpid1 = false := by
      rw [h1, edgeB_eq_isSome, edgeLookup_dGet_fst, ← edgeB_eq_isSome]
      exact h21
    have h2 : delEdge (delEdge s.adjacency ev.dpid1 ev.dpid2) ev.dpid2 ev.dpid1 =
        (dGet (delEdge s.adjacency ev.dpid1 ev.dpid2) ev.dpid2).1 :=
      delEdge_absent _ ev.dpid2 ev.dpid1 h21'
    rw [h2, edgeLookup_dGet_fst, h1, edgeLookup_dGet_fst]

/-- Witness for C7 at concrete inputs: idempotent link-add on the empty
state, and the amended no-op facts for `c7state`/`c7ev`. -/
theorem c7_witness :
    (handleLinkEvent (handleLinkEvent ⟨[], [], [], [], [], [], [], []⟩ ⟨1, 2, 5, 6, true, false⟩)
        ⟨1, 2, 5, 6, true, false⟩).adjacency =
      (handleLinkEvent ⟨[], [], [], [], [], [], [], []⟩ ⟨1, 2, 5, 6, true, false⟩).adjacency ∧
    (handleLinkEvent c7state c7ev).path_table = [] ∧
    (∀ a b, edgeLookup (handleLinkEvent c7state c7ev).adjacency a b =
      edgeLookup c7state.adjacency a b) := by
  have h := c7_link_events_amended
  refine ⟨h.1 ⟨[], [], [], [], [], [], [], []⟩ ⟨1, 2, 5, 6, true, false⟩ rfl, ?_, ?_⟩
  · exact (h.2 c7state c7ev rfl rfl (by decide) (by decide)).1
  · exact (h.2 c7state c7ev rfl rfl (by decide) (by decide)).2.1

/-- `_handle_ConnectionDown` (router.py lines 235-251): drop the liveness
record, remove the edges incident to the switch (both directions), clear the
switch's own adjacency entry, and drop `host_to_switch` records owned by the
switch.  `none` models an uncaught `KeyError` from the deletion loop. -/
def handleConnectionDown (s : NetState) (dpid : Nat) : Option NetState :=
  let sls := if acontains s.switch_last_seen dpid
    then adel s.switch_last_seen dpid else s.switch_last_seen
  let g := dGet s.adjacency dpid
  match foldDel dpid g.1 (g.2.map (fun kv => kv.1)) with
  | none => none
  | some adj2 => some { s with
      switch_last_seen := sls
      adjacency := aset adj2 dpid []
      host_to_switch := s.host_to_switch.filter (fun kv => !(kv.2 == dpid)) }

/-- Every directed edge of the adjacency list has its reverse: the shape link
events maintain (both directions are always added and removed together). -/
def symB (adj : AdjList) : Bool :=
  adj.all (fun kv => kv.2.all (fun nb => edgeB adj nb.1 kv.1))

/-- Every neighbor dictionary has distinct keys: automatic for a Python dict. -/
def innerNodupB (adj : AdjList) : Bool :=
  adj.all (fun kv => decide (kv.2.map (fun nb => nb.1)).Nodup)

theorem symB_spec (adj : AdjList) (hs : symB adj = true) (a b : Nat)
    (h : edgeB adj a b = true) : edgeB adj b a = true := by
  unfold edgeB acontains succList at h
  cases hm : aget adj a with
  | none => simp [hm, aget] at h
  | some m =>
    rw [hm] at h
    simp only [Option.getD_some] at h
    cases hb : aget m b with
    | none => simp [hb] at h
    | some p =>
      have hmem := aget_mem adj a m hm
      have hbm := aget_mem m b p hb
      unfold symB at hs
      rw [List.all_eq_true] at hs
      have := hs (a, m) hmem
      rw [List.all_eq_true] at this
      exact this (b, p) hbm

theorem innerNodupB_spec (adj : AdjList) (hs : innerNodupB adj = true) (k : Nat)
    (m : List (Nat × Nat)) (h : aget adj k = some m) :
    (m.map (fun nb => nb.1)).Nodup := by
  unfold innerNodupB at hs
  rw [List.all_eq_true] at hs
  have := hs (k, m) (aget_mem adj k m h)
  simpa using this

theorem foldDel_sem (d : Nat) :
    ∀ (snapshot : List Nat) (adj : AdjList), snapshot.Nodup →
      (∀ nb ∈ snapshot, aget adj nb = none ∨
        ∃ m, aget adj nb = some m ∧ acontains m d = true) →
      ∃ adj2, foldDel d adj snapshot = some adj2 ∧
        (∀ x, x ∉ snapshot → aget adj2 x = aget adj x) ∧
        (∀ nb ∈ snapshot, aget adj2 nb = (aget adj nb).map (fun m => adel m d)) := by
  intro snapshot
  induction snapshot with
  | nil =>
    intro adj _ _
    exact ⟨adj, rfl, fun x _ => rfl, by simp⟩
  | cons nb rest ih =>
    intro adj hnd hcond
    simp only [List.nodup_cons] at hnd
    cases hnb : aget adj nb with
    | none =>
      have hstep : foldDel d adj (nb :: rest) = foldDel d adj rest := by
        simp [foldDel, hnb]
      obtain ⟨adj2, heq, hout, hin⟩ := ih adj hnd.2 (fun x hx => hcond x (by simp [hx]))
      refine ⟨adj2, by rw [hstep]; exact heq, ?_, ?_⟩
      · intro x hx
        exact hout x (fun h => hx (by simp [h]))
      · intro x hx
        rcases List.mem_cons.1 hx with rfl | hx2
        · rw [hout x hnd.1, hnb]
          rfl
        · exact hin x hx2
    | some m =>
      have hcont : acontains m d = true := by
        rcases hcond nb (by simp) with h | ⟨m2, hm2, hc2⟩
        · rw [hnb] at h
          exact absurd h (by simp)
        · rw [hnb] at hm2
          injection hm2 with hm3
          rw [hm3]
          exact hc2
      have hstep : foldDel d adj (nb :: rest) =
          foldDel d (aset adj nb (adel m d)) rest := by
        simp [foldDel, hnb, hcont]
      have hcond2 : ∀ x ∈ rest, aget (aset adj nb (adel m d)) x = none ∨
          ∃ m2, aget (aset adj nb (adel m d)) x = some m2 ∧ acontains m2 d = true := by
        intro x hx
        have hxnb : nb ≠ x := fun h => hnd.1 (h ▸ hx)
        rw [aget_aset_ne adj nb x _ hxnb]
        exact hcond x (by simp [hx])
      obtain ⟨adj2, heq, hout, hin⟩ := ih (aset adj nb (adel m d)) hnd.2 hcond2
      refine ⟨adj2, by rw [hstep]; exact heq, ?_, ?_⟩
      · intro x hx
        have hxnb : nb ≠ x := fun h => hx (by simp [h])
        rw [hout x (fun h => hx (by simp [h])), aget_aset_ne adj nb x _ hxnb]
      · intro x hx
        rcases List.mem_cons.1 hx with rfl | hx2
        · rw [hout x hnd.1, aget_aset_self, hnb]
          rfl
        · have hxnb : nb ≠ x := fun h => hnd.1 (h ▸ hx2)
          rw [hin x hx2, aget_aset_ne adj nb x _ hxnb]

theorem edgeB_of_aget (adj : AdjList) (a b : Nat) (m : List (Nat × Nat))
    (h : aget adj a = some m) : edgeB adj a b = acontains m b := by
  unfold edgeB succList
  rw [h]
  rfl

theorem edgeB_of_none (adj : AdjList) (a b : Nat) (h : aget adj a = none) :
    edgeB adj a b = false := by
  unfold edgeB succList
  rw [h]
  simp [acontains, aget]

/-- Concrete state for C6: switch 7 owns a learned MAC record. -/
def c6state : NetState :=
  ⟨[], [], [], [("00:00:00:00:00:02", (7, 3))], [], [], [], [(7, 5)]⟩

/-- C6 counterexample: after `_handle_ConnectionDown` for dpid 7 the
`mac_to_port` host record owned by switch 7 is still present — the handler
never touches `mac_to_port`, so "no host record whose owning switch is d
remains in the host-location tables" fails. -/
theorem c6_counterexample :
    (handleConnectionDown c6state 7).map (fun t => t.mac_to_port) =
      some [("00:00:00:00:00:02", (7, 3))] := by
  decide

/-- C6 amended: on a state whose adjacency list is symmetric with duplicate-free
rows (the shape link events maintain) and whose liveness table has unique keys,
`_handle_ConnectionDown d` succeeds, removes d's liveness record, leaves no
directed edge `d → n` or `n → d`, and leaves no `host_to_switch` (IP → switch)
record owned by d; `mac_to_port` records owned by d are NOT removed. -/
theorem c6_connectionDown_amended (s : NetState) (d : Nat)
    (hsym : symB s.adjacency = true) (hin : innerNodupB s.adjacency = true)
    (hsls : (s.switch_last_seen.map (fun kv => kv.1)).Nodup) :
    ∃ s', handleConnectionDown s d = some s' ∧
      aget s'.switch_last_seen d = none ∧
      (∀ n, edgeLookup s'.adjacency d n = none ∧ edgeLookup s'.adjacency n d = none) ∧
      (∀ ip sw, aget s'.host_to_switch ip = some sw → sw ≠ d) := by
  have hslsA : aget (if acontains s.switch_last_seen d
      then adel s.switch_last_seen d else s.switch_last_seen) d = none := by
    by_cases h : acontains s.switch_last_seen d
    · rw [if_pos h]
      exact aget_adel_self_nodup s.switch_last_seen d hsls
    · rw [if_neg h]
      unfold acontains at h
      cases hh : aget s.switch_last_seen d with
      | none => rfl
      | some v => exact absurd (by simp [hh]) h
  have hhost : ∀ ip sw,
      aget (s.host_to_switch.filter (fun kv => !(kv.2 == d))) ip = some sw → sw ≠ d := by
    intro ip sw h
    have hmem := aget_mem _ ip sw h
    have := List.of_mem_filter hmem
    simpa using this
  cases hd : aget s.adjacency d with
  | none =>
    have hdg : dGet s.adjacency d = (s.adjacency ++ [(d, [])], []) := dGet_absent _ _ hd
    have hres : handleConnectionDown s d = some { s with
        switch_last_seen := if acontains s.switch_last_seen d
          then adel s.switch_last_seen d else s.switch_last_seen
        adjacency := aset (s.adjacency ++ [(d, [])]) d []
        host_to_switch := s.host_to_switch.filter (fun kv => !(kv.2 == d)) } := by
      simp only [handleConnectionDown, hdg, List.map, foldDel]
    refine ⟨_, hres, hslsA, ?_, hhost⟩
    intro n
    constructor
    · unfold edgeLookup
      rw [aget_aset_self]
      simp [aget]
    · by_cases hn : n = d
      · subst hn
        unfold edgeLookup
        rw [aget_aset_self]
        simp [aget]
      · unfold edgeLookup
        rw [aget_aset_ne _ d n _ (Ne.symm hn)]
        cases hA : aget s.adjacency n with
        | none =>
          rw [aget_append_none _ _ n hA]
          simp [aget, Ne.symm hn]
        | some m =>
          rw [aget_append_some _ _ n m hA]
          show aget m d = none
          cases hmd : aget m d with
          | none => rfl
          | some p =>
            have hnd : edgeB s.adjacency n d = true := by
              rw [edgeB_of_aget s.adjacency n d m hA]
              simp [acontains, hmd]
            have := symB_spec s.adjacency hsym n d hnd
            rw [edgeB_of_none s.adjacency d n hd] at this
            exact absurd this (by simp)
  | some md =>
    have hdg : dGet s.adjacency d = (s.adjacency, md) := dGet_present _ _ md hd
    have hsnap : (md.map (fun kv => kv.1)).Nodup := innerNodupB_spec s.adjacency hin d md hd
    have hcond : ∀ nb ∈ md.map (fun kv => kv.1), aget s.adjacency nb = none ∨
        ∃ m, aget s.adjacency nb = some m ∧ acontains m d = true := by
      intro nb hnb
      have hdnb : edgeB s.adjacency d nb = true := by
        rw [edgeB_of_aget s.adjacency d nb md hd]
        unfold acontains
        exact (akeys_mem md nb).1 hnb
      have hnbd := symB_spec s.adjacency hsym d nb hdnb
      cases hA : aget s.adjacency nb with
      | none =>
        rw [edgeB_of_none s.adjacency nb d hA] at hnbd
        exact absurd hnbd (by simp)
      | some m =>
        rw [edgeB_of_aget s.adjacency nb d m hA] at hnbd
        exact Or.inr ⟨m, rfl, hnbd⟩
    obtain ⟨adj2, heq, hout, hin2⟩ := foldDel_sem d (md.map (fun kv => kv.1))
      s.adjacency hsnap hcond
    have hres : handleConnectionDown s d = some { s with
        switch_last_seen := if acontains s.switch_last_seen d
          then adel s.switch_last_seen d else s.switch_last_seen
        adjacency := aset adj2 d []
        host_to_switch := s.host_to_switch.filter (fun kv => !(kv.2 == d)) } := by
      simp only [handleConnectionDown, hdg, heq]
    refine ⟨_, hres, hslsA, ?_, hhost⟩
    intro n
    constructor
    · unfold edgeLookup
      rw [aget_aset_self]
      simp [aget]
    · by_cases hn : n = d
      · subst hn
        unfold edgeLookup
        rw [aget_aset_self]
        simp [aget]
      · unfold edgeLookup
        rw [aget_aset_ne _ d n _ (Ne.symm hn)]
        by_cases hns : n ∈ md.map (fun kv => kv.1)
        · rw [hin2 n hns]
          cases hA : aget s.adjacency n with
          | none => rfl
          | some m =>
            show aget (adel m d) d = none
            exact aget_adel_self_nodup m d (innerNodupB_spec s.adjacency hin n m hA)
        · rw [hout n hns]
          cases hA : aget s.adjacency n with
          | none => rfl
          | some m =>
            show aget m d = none
            cases hmd : aget m d with
            | none => rfl
            | some p =>
              have hnd : edgeB s.adjacency n d = true := by
                rw [edgeB_of_aget s.adjacency n d m hA]
                simp [acontains, hmd]
              have h2 := symB_spec s.adjacency hsym n d hnd
              rw [edgeB_of_aget s.adjacency d n md hd] at h2
              unfold acontains at h2
              rw [← akeys_mem] at h2
              exact absurd h2 hns

/-- The `last_command` record of `commands.json` (command_db.py): a dict whose
fields are read with `.get`, so each may be absent (`none`). -/
structure LastCommand where
  id : Nat
  command : Option String
  type : Option String
  timestamp : Option String
deriving DecidableEq

/-- The outcome of opening and parsing the JSON database file: parsed content,
or an exception while reading. -/
inductive DbRead where
  | ok (last_command : Option LastCommand)
  | ioError
deriving DecidableEq

/-- `_read_db` (command_db.py lines 38-45): return the parsed file, or the
default `{"commands": [], "last_command": None}` on any exception. -/
def readDb : DbRead → Option LastCommand
  | .ok lc => lc
  | .ioError => none

/-- `get_last_command` (command_db.py lines 156-163):
`self._read_db().get('last_command')`; its own try/except never fires after
`_read_db` has already swallowed read errors. -/
def getLastCommand (r : DbRead) : Option LastCommand := readDb r

/-- `is_last_command_ping` (command_db.py lines 165-168):
`last_command is not None and last_command.get('type') == 'ping'`. -/
def isLastCommandPing (r : DbRead) : Bool :=
  match getLastCommand r with
  | none => false
  | some c => c.type == some "ping"

/-- `MAX_FASTAPI_RETRIES` (router.py line 30). -/
def MAX_FASTAPI_RETRIES : Nat := 3

/-- Outcome of one `requests.post` call inside `_send_to_fastapi`. -/
inductive PostOutcome where
  | ok
  | httpErr
  | timeoutErr
  | reqErr
deriving DecidableEq

/-- Observable result of `_send_to_fastapi`: the returned boolean, the number
of loop iterations (attempts) performed, and the number of 1-second
`time.sleep(retry_delay)` calls executed. -/
structure SendResult where
  success : Bool
  attempts : Nat
  sleeps : Nat
deriving DecidableEq

/-- The retry loop of `_send_to_fastapi` (router.py lines 151-186):
`for attempt in range(max_retries)` with `retry_delay = 1`.  `reconnect i`
is the outcome of `check_fastapi_connection()` on attempt `i`, `post i` the
outcome of the POST on attempt `i`; `avail` is the `fastapi_available` flag,
reset to `False` after every failure. -/
def sendLoop (reconnect : Nat → Bool) (post : Nat → PostOutcome) :
    Nat → Nat → Bool → SendResult
  | _, 0, _ => ⟨false, 0, 0⟩
  | i, b + 1, avail =>
    if !avail && !(reconnect i) then
      let r := sendLoop reconnect post (i + 1) b false
      ⟨r.success, r.attempts + 1, r.sleeps + 1⟩
    else
      match post i with
      | .ok => ⟨true, 1, 0⟩
      | _ =>
        let r := sendLoop reconnect post (i + 1) b false
        ⟨r.success, r.attempts + 1, r.sleeps + 1⟩

/-- `_send_to_fastapi` run from attempt 0 with the full retry budget. -/
def sendToFastapi (reconnect : Nat → Bool) (post : Nat → PostOutcome)
    (avail : Bool) : SendResult :=
  sendLoop reconnect post 0 MAX_FASTAPI_RETRIES avail

/-- Witness for C6 at a concrete symmetric two-switch state. -/
theorem c6_witness :
    ∃ s', handleConnectionDown
        ⟨[(1, [(2, 10)]), (2, [(1, 11)])], [], [("10.0.0.5", 1)], [], [], [], [],
          [(1, 0), (2, 1)]⟩ 1 = some s' ∧
      aget s'.switch_last_seen 1 = none ∧
      (∀ n, edgeLookup s'.adjacency 1 n = none ∧ edgeLookup s'.adjacency n 1 = none) ∧
      (∀ ip sw, aget s'.host_to_switch ip = some sw → sw ≠ 1) :=
  c6_connectionDown_amended
    ⟨[(1, [(2, 10)]), (2, [(1, 11)])], [], [("10.0.0.5", 1)], [], [], [], [],
      [(1, 0), (2, 1)]⟩ 1 (by decide) (by decide) (by decide)

example : dijkstra [(1, [(2, 10)]), (2, [(1, 11)]), (3, [(4, 1)]), (4, [(3, 2)])] 1 3 = [] := by
  rfl

example : dijkstra [(1, [(2, 10)])] 1 5 = [] := by
  rfl

example : dijkstra [(1, [(2, 10)]), (2, [(1, 11)])] 1 1 = [1] := by
  rfl

/-- A POX `EthAddr`: the six raw bytes plus the `is_multicast`/`is_broadcast`
predicates (modelled abstractly as fields). -/
structure EthAddr where
  raw : List Nat
  multicast : Bool
  broadcast : Bool
deriving DecidableEq

/-- Two lowercase hex digits of a byte. -/
def byteHex (n : Nat) : String :=
  String.mk [Nat.digitChar (n / 16 % 16), Nat.digitChar (n % 16)]

/-- `str(eth_addr)`: the colon-separated lowercase hex form, the shape used as
`mac_to_port` keys. -/
def ethStr (a : EthAddr) : String :=
  String.intercalate ":" (a.raw.map byteHex)

/-- A POX `IPAddr`: its `str()` form plus the multicast/broadcast predicates. -/
structure IpAddr where
  txt : String
  multicast : Bool
  broadcast : Bool
deriving DecidableEq

structure ArpInfo where
  opcode : Nat
  protosrc : String
  protodst : String
deriving DecidableEq

structure IpInfo where
  srcip : IpAddr
  dstip : IpAddr
  ttl : Nat
deriving DecidableEq

structure IcmpInfo where
  type : Nat
  code : Nat
deriving DecidableEq

structure EthInfo where
  src : EthAddr
  dst : EthAddr
  type : Nat
deriving DecidableEq

/-- A parsed packet as `_handle_PacketIn` inspects it: the `parsed` flag and
the results of `packet.find` for each protocol layer. -/
structure Pkt where
  parsed : Bool
  eth : Option EthInfo
  arp : Option ArpInfo
  ip : Option IpInfo
  icmp : Option IcmpInfo
deriving DecidableEq

/-- A PacketIn event: arriving switch, ingress port, parsed packet. -/
structure PktEvent where
  dpid : Nat
  port : Nat
  pkt : Pkt
deriving DecidableEq

/-- The externally visible commands the handler can issue. -/
inductive Action where
  | packetOut (dpid port : Nat)
  | flood (dpid inPort : Nat)
  | flowMod (dpid outPort : Nat)
  | telemetry (kind src dst : String) (path : List Nat) (ttl : Nat)
deriving DecidableEq

/-- Which return point of `_handle_PacketIn` ended the event's processing. -/
inductive Outcome where
  | ignored
  | arpDirect
  | arpFlood
  | nonIpFlood
  | nonIpNoop
  | bcastIpFlood
  | unknownDest
  | noPath
  | notOnPath
  | errorRaised
  | delivered
deriving DecidableEq

/-- Result of one `_handle_PacketIn` run: the new state, the emitted actions
in order, whether `dijkstra` was invoked, the path used for the forwarding
stage (if reached), whether the path-resolved stage was reached, and the
return point taken. -/
structure PIRes where
  st : NetState
  acts : List Action
  dijkstraCalled : Bool
  usedPath : Option (List Nat)
  pathResolved : Bool
  outcome : Outcome
deriving DecidableEq

/-- MAC learning (router.py lines 266-285): record `(mac -> (dpid, port))`
for a new MAC; update it only when the switch changed (host moved). -/
def learnMac (s : NetState) (src_mac : String) (dpid port : Nat) : NetState :=
  match aget s.mac_to_port src_mac with
  | some pr =>
    if pr.1 ≠ dpid then { s with mac_to_port := aset s.mac_to_port src_mac (dpid, port) }
    else s
  | none => { s with mac_to_port := aset s.mac_to_port src_mac (dpid, port) }

/-- CPython membership of a POX `EthAddr` object in `mac_to_port`, whose keys
are `str` objects (`forward_packet` line 471 tests `packet.dst in mac_to_port`
on the raw object): `EthAddr.__hash__` hashes the 6 raw bytes while every
stored key hashes as its 17-character formatted string, so the dict probe
never lands on an occupied slot and membership is decided false for every
state.  Modelled as a search with that object comparison, which is false. -/
def ethAddrMatchesStrKey (_a : EthAddr) (_k : String) : Bool := false

/-- `packet.dst in mac_to_port` / `mac_to_port[packet.dst]` with the raw
`EthAddr` object as key. -/
def lookupByEthAddr (a : EthAddr) (m : List (String × Nat × Nat)) :
    Option (Nat × Nat) :=
  (m.find? (fun kv => ethAddrMatchesStrKey a kv.1)).map (fun kv => kv.2)

/-- `forward_packet` (router.py lines 463-497): at the path's last position,
deliver to `mac_to_port[packet.dst]` if the raw-object lookup hits, else
flood; otherwise output toward the next hop per the adjacency edge, else
flood. -/
def forwardPacket (s : NetState) (dpid port : Nat) (ethDst : EthAddr)
    (path : List Nat) : List Action :=
  let pos := path.indexOf dpid
  if pos = path.length - 1 then
    match lookupByEthAddr ethDst s.mac_to_port with
    | some pr => [Action.packetOut dpid pr.2]
    | none => [Action.flood dpid port]
  else
    let nxt := path.getD (pos + 1) 0
    match aget s.adjacency dpid with
    | some m =>
      match aget m nxt with
      | some out_port => [Action.packetOut dpid out_port]
      | none => [Action.flood dpid port]
    | none => [Action.flood dpid port]

/-- `install_path_flows` (router.py lines 193-212): when the switch is not the
last hop, install a flow rule toward `adjacency_list[current][next]`; the
unguarded inner indexing raises `KeyError` (`none`) when the edge is absent. -/
def installFlows (adj : AdjList) (dpid : Nat) (path : List Nat) :
    Option (List Action) :=
  let i := path.indexOf dpid
  if i < path.length - 1 then
    let nxt := path.getD (i + 1) 0
    match aget adj dpid with
    | none => none
    | some m =>
      match aget m nxt with
      | none => none
      | some out_port => some [Action.flowMod dpid out_port]
  else some []

/-- Split on `'.'`, Python `str.split('.')` semantics, written over the
character list so it evaluates by reduction. -/
def splitDotsAux : List Char → List Char → List String
  | [], acc => [String.mk acc.reverse]
  | c :: rest, acc =>
    if c = '.' then String.mk acc.reverse :: splitDotsAux rest []
    else splitDotsAux rest (c :: acc)

def splitDots (s : String) : List String := splitDotsAux s.data []

/-- `src_ip.split('.')[-1]`. -/
def lastOctet (ip : String) : String := (splitDots ip).getLastD ""

/-- The tail of `_handle_PacketIn` once a path is in hand (router.py lines
395-451): derive display names, emit ICMP telemetry when the last operator
command was a ping, then either flood (switch not on path), abort on the
`KeyError` of `install_path_flows`, or install the flow and forward. -/
def resolvedStage (s4 : NetState) (db : DbRead) (ev : PktEvent) (eth : EthInfo)
    (ip : IpInfo) (path : List Nat) (dcalled : Bool) : PIRes :=
  let src_ip := ip.srcip.txt
  let dst_ip := ip.dstip.txt
  let src_host := (aget s4.ip_to_name src_ip).getD ("h" ++ lastOctet src_ip)
  let dst_host := (aget s4.ip_to_name dst_ip).getD ("h" ++ lastOctet dst_ip)
  let tele : List Action :=
    match ev.pkt.icmp with
    | some ic =>
      if ic.type == 8 then
        if isLastCommandPing db then
          [Action.telemetry "ping" src_host dst_host path ip.ttl] else []
      else if ic.type == 0 then
        if isLastCommandPing db then
          [Action.telemetry "pong" src_host dst_host path ip.ttl] else []
      else []
    | none => []
  if !(path.contains ev.dpid) then
    ⟨s4, tele ++ [Action.flood ev.dpid ev.port], dcalled, some path, true, Outcome.notOnPath⟩
  else
    match installFlows s4.adjacency ev.dpid path with
    | none => ⟨s4, tele, dcalled, some path, true, Outcome.errorRaised⟩
    | some flows =>
      ⟨s4, tele ++ flows ++ forwardPacket s4 ev.dpid ev.port eth.dst path,
        dcalled, some path, true, Outcome.delivered⟩

/-- ARP handling branch of `_handle_PacketIn` (router.py lines 288-314). -/
def arpStage (s1 : NetState) (src_mac : String) (ev : PktEvent) (eth : EthInfo) : PIRes :=
  let s2 := match ev.pkt.arp with
    | some a =>
      if acontains s1.ip_to_mac a.protosrc then s1
      else { s1 with ip_to_mac := aset s1.ip_to_mac a.protosrc src_mac }
    | none => s1
  match aget s2.mac_to_port (ethStr eth.dst) with
  | some pr =>
    if !eth.dst.multicast && !eth.dst.broadcast && pr.1 == ev.dpid then
      ⟨s2, [Action.packetOut ev.dpid pr.2], false, none, false, Outcome.arpDirect⟩
    else ⟨s2, [Action.flood ev.dpid ev.port], false, none, false, Outcome.arpFlood⟩
  | none => ⟨s2, [Action.flood ev.dpid ev.port], false, none, false, Outcome.arpFlood⟩

/-- Non-IP frame branch of `_handle_PacketIn` (router.py lines 316-326). -/
def nonIpStage (s1 : NetState) (ev : PktEvent) (eth : EthInfo) : PIRes :=
  if eth.dst.multicast || eth.dst.broadcast then
    ⟨s1, [Action.flood ev.dpid ev.port], false, none, false, Outcome.nonIpFlood⟩
  else if !(acontains s1.mac_to_port (ethStr eth.dst)) then
    ⟨s1, [Action.flood ev.dpid ev.port], false, none, false, Outcome.unknownDest⟩
  else ⟨s1, [], false, none, false, Outcome.nonIpNoop⟩

/-- Path-cache lookup and resolver of `_handle_PacketIn` (router.py lines 375-393). -/
def ipCacheStage (s3 : NetState) (db : DbRead) (ev : PktEvent) (eth : EthInfo)
    (ip : IpInfo) : PIRes :=
  let src_ip := ip.srcip.txt
  let dst_ip := ip.dstip.txt
  let src_switch := (aget s3.host_to_switch src_ip).getD 0
  let dst_switch := (aget s3.host_to_switch dst_ip).getD 0
  match aget s3.path_table (src_ip, dst_ip) with
  | some path => resolvedStage s3 db ev eth ip path false
  | none =>
    if src_switch == dst_switch then
      resolvedStage
        { s3 with path_table := aset s3.path_table (src_ip, dst_ip) [src_switch] }
        db ev eth ip [src_switch] false
    else
      let path := dijkstra s3.adjacency src_switch dst_switch
      if path.isEmpty then
        ⟨s3, [Action.flood ev.dpid ev.port], true, none, false, Outcome.noPath⟩
      else
        resolvedStage
          { s3 with path_table := aset s3.path_table (src_ip, dst_ip) path }
          db ev eth ip path true

/-- IP packet branch of `_handle_PacketIn` (router.py lines 328-393): learn the
source's IP-to-MAC, IP-to-switch and display-name records, then handle broadcast
and unknown-destination cases before consulting the path cache. -/
def ipStage (s1 : NetState) (src_mac : String) (db : DbRead) (ev : PktEvent)
    (eth : EthInfo) (ip : IpInfo) : PIRes :=
  let src_ip := ip.srcip.txt
  let dst_ip := ip.dstip.txt
  let s2 := if acontains s1.ip_to_mac src_ip then s1
    else { s1 with ip_to_mac := aset s1.ip_to_mac src_ip src_mac }
  let s3 := if acontains s2.host_to_switch src_ip then s2
    else
      let s2' := { s2 with host_to_switch := aset s2.host_to_switch src_ip ev.dpid }
      if acontains s2'.ip_to_name src_ip then s2'
      else { s2' with
        ip_to_name := aset s2'.ip_to_name src_ip ("h" ++ lastOctet src_ip) }
  if ip.dstip.multicast || ip.dstip.broadcast then
    ⟨s3, [Action.flood ev.dpid ev.port], false, none, false, Outcome.bcastIpFlood⟩
  else if !((eth.dst.broadcast || eth.dst.multicast) &&
        acontains s3.host_to_switch dst_ip) &&
      (!(acontains s3.mac_to_port (ethStr eth.dst)) &&
        !(acontains s3.host_to_switch dst_ip)) then
    ⟨s3, [Action.flood ev.dpid ev.port], false, none, false, Outcome.unknownDest⟩
  else if !(acontains s3.host_to_switch dst_ip) then
    ⟨s3, [Action.flood ev.dpid ev.port], false, none, false, Outcome.unknownDest⟩
  else
    ipCacheStage s3 db ev eth ip

/-- `_handle_PacketIn` (router.py lines 253-451). -/
def handlePacketIn (s : NetState) (db : DbRead) (ev : PktEvent) : PIRes :=
  if ev.pkt.parsed = false then ⟨s, [], false, none, false, Outcome.ignored⟩
  else
    match ev.pkt.eth with
    | none => ⟨s, [], false, none, false, Outcome.ignored⟩
    | some eth =>
      if eth.src.multicast || eth.src.broadcast then
        ⟨s, [], false, none, false, Outcome.ignored⟩
      else
        let src_mac := ethStr eth.src
        let s1 := learnMac s src_mac ev.dpid ev.port
        if eth.type == 2054 then arpStage s1 src_mac ev eth
        else
          match ev.pkt.ip with
          | none => nonIpStage s1 ev eth
          | some ip => ipStage s1 src_mac db ev eth ip

/-- `l` contains a telemetry record. -/
def hasTele (l : List Action) : Bool :=
  l.any (fun a => match a with
    | Action.telemetry _ _ _ _ _ => true
    | _ => false)

theorem hasTele_iff (l : List Action) :
    hasTele l = true ↔ ∃ k sh dh p t, Action.telemetry k sh dh p t ∈ l := by
  unfold hasTele
  rw [List.any_eq_true]
  constructor
  · rintro ⟨a, ha, hp⟩
    cases a with
    | telemetry k sh dh p t => exact ⟨k, sh, dh, p, t, ha⟩
    | packetOut d p2 => simp at hp
    | flood d p2 => simp at hp
    | flowMod d p2 => simp at hp
  · rintro ⟨k, sh, dh, p, t, hm⟩
    exact ⟨_, hm, rfl⟩

theorem hasTele_append (l1 l2 : List Action) :
    hasTele (l1 ++ l2) = (hasTele l1 || hasTele l2) := by
  unfold hasTele
  exact List.any_append

theorem installFlows_hasTele (adj : AdjList) (dpid : Nat) (path : List Nat)
    (l : List Action) (h : installFlows adj dpid path = some l) : hasTele l = false := by
  unfold installFlows at h
  by_cases hc : path.indexOf dpid < path.length - 1
  · rw [if_pos hc] at h
    cases h1 : aget adj dpid with
    | none =>
      simp only [h1] at h
      exact Option.noConfusion h
    | some m =>
      simp only [h1] at h
      cases h2 : aget m (path.getD (path.indexOf dpid + 1) 0) with
      | none =>
        simp only [h2] at h
        exact Option.noConfusion h
      | some out_port =>
        simp only [h2, Option.some.injEq] at h
        rw [← h]
        rfl
  · rw [if_neg hc] at h
    injection h with h3
    rw [← h3]
    rfl

theorem forwardPacket_hasTele (s : NetState) (dpid port : Nat) (ethDst : EthAddr)
    (path : List Nat) : hasTele (forwardPacket s dpid port ethDst path) = false := by
  simp only [forwardPacket]
  repeat' split
  all_goals rfl

theorem learnMac_path_table (s : NetState) (m : String) (d p : Nat) :
    (learnMac s m d p).path_table = s.path_table := by
  unfold learnMac
  repeat' split
  all_goals rfl

theorem resolvedStage_dijkstraCalled (s4 : NetState) (db : DbRead) (ev : PktEvent)
    (eth : EthInfo) (ip : IpInfo) (path : List Nat) (dcalled : Bool) :
    (resolvedStage s4 db ev eth ip path dcalled).dijkstraCalled = dcalled := by
  unfold resolvedStage
  repeat' split
  all_goals rfl

theorem resolvedStage_usedPath (s4 : NetState) (db : DbRead) (ev : PktEvent)
    (eth : EthInfo) (ip : IpInfo) (path : List Nat) (dcalled : Bool) :
    (resolvedStage s4 db ev eth ip path dcalled).usedPath = some path := by
  unfold resolvedStage
  repeat' split
  all_goals rfl

theorem resolvedStage_hasTele (s4 : NetState) (db : DbRead) (ev : PktEvent)
    (eth : EthInfo) (ip : IpInfo) (path : List Nat) (dcalled : Bool) (ic : IcmpInfo)
    (hicmp : ev.pkt.icmp = some ic) (hty : ic.type = 8 ∨ ic.type = 0) :
    hasTele (resolvedStage s4 db ev eth ip path dcalled).acts = isLastCommandPing db := by
  unfold resolvedStage
  simp only [hicmp]
  cases hping : isLastCommandPing db with
  | true =>
    have htele : (if (ic.type == 8) = true then
        if true = true then
          [Action.telemetry "ping" ((aget s4.ip_to_name ip.srcip.txt).getD
            ("h" ++ lastOctet ip.srcip.txt)) ((aget s4.ip_to_name ip.dstip.txt).getD
            ("h" ++ lastOctet ip.dstip.txt)) path ip.ttl] else []
      else if (ic.type == 0) = true then
        if true = true then
          [Action.telemetry "pong" ((aget s4.ip_to_name ip.srcip.txt).getD
            ("h" ++ lastOctet ip.srcip.txt)) ((aget s4.ip_to_name ip.dstip.txt).getD
            ("h" ++ lastOctet ip.dstip.txt)) path ip.ttl] else []
      else []) =
        [Action.telemetry (if (ic.type == 8) = true then "ping" else "pong")
          ((aget s4.ip_to_name ip.srcip.txt).getD ("h" ++ lastOctet ip.srcip.txt))
          ((aget s4.ip_to_name ip.dstip.txt).getD ("h" ++ lastOctet ip.dstip.txt))
          path ip.ttl] := by
      rcases hty with hty | hty
      · rw [hty]
        rfl
      · rw [hty]
        rfl
    rw [htele]
    by_cases hc : (!path.contains ev.dpid) = true
    · rw [if_pos hc]
      rfl
    · rw [if_neg hc]
      cases hinst : installFlows s4.adjacency ev.dpid path with
      | none => rfl
      | some flows => rfl
  | false =>
    have htele : (if (ic.type == 8) = true then
        if false = true then
          [Action.telemetry "ping" ((aget s4.ip_to_name ip.srcip.txt).getD
            ("h" ++ lastOctet ip.srcip.txt)) ((aget s4.ip_to_name ip.dstip.txt).getD
            ("h" ++ lastOctet ip.dstip.txt)) path ip.ttl] else []
      else if (ic.type == 0) = true then
        if false = true then
          [Action.telemetry "pong" ((aget s4.ip_to_name ip.srcip.txt).getD
            ("h" ++ lastOctet ip.srcip.txt)) ((aget s4.ip_to_name ip.dstip.txt).getD
            ("h" ++ lastOctet ip.dstip.txt)) path ip.ttl] else []
      else []) = ([] : List Action) := by
      rcases hty with hty | hty
      · rw [hty]
        rfl
      · rw [hty]
        rfl
    rw [htele]
    by_cases hc : (!path.contains ev.dpid) = true
    · rw [if_pos hc]
      rfl
    · rw [if_neg hc]
      cases hinst : installFlows s4.adjacency ev.dpid path with
      | none => rfl
      | some flows =>
        show hasTele ([] ++ flows ++ forwardPacket s4 ev.dpid ev.port eth.dst path) = false
        rw [List.nil_append, hasTele_append,
          installFlows_hasTele s4.adjacency ev.dpid path flows hinst,
          forwardPacket_hasTele]
        rfl

theorem sendLoop_bounds (reconnect : Nat → Bool) (post : Nat → PostOutcome) :
    ∀ b i avail, (sendLoop reconnect post i b avail).attempts ≤ b ∧
      (sendLoop reconnect post i b avail).sleeps ≤ b := by
  intro b
  induction b with
  | zero =>
    intro i avail
    simp [sendLoop]
  | succ b ih =>
    intro i avail
    unfold sendLoop
    by_cases h : (!avail && !(reconnect i)) = true
    · rw [if_pos h]
      have := ih (i + 1) false
      simp only
      omega
    · rw [if_neg h]
      cases post i with
      | ok => simp
      | httpErr =>
        have := ih (i + 1) false
        simp only
        omega
      | timeoutErr =>
        have := ih (i + 1) false
        simp only
        omega
      | reqErr =>
        have := ih (i + 1) false
        simp only
        omega

theorem sendLoop_all_fail (reconnect : Nat → Bool) (post : Nat → PostOutcome)
    (hfail : ∀ i, post i ≠ PostOutcome.ok) :
    ∀ b i avail, (sendLoop reconnect post i b avail).success = false := by
  intro b
  induction b with
  | zero =>
    intro i avail
    simp [sendLoop]
  | succ b ih =>
    intro i avail
    unfold sendLoop
    by_cases h : (!avail && !(reconnect i)) = true
    · rw [if_pos h]
      simp only
      exact ih (i + 1) false
    · rw [if_neg h]
      cases hp : post i with
      | ok => exact absurd hp (hfail i)
      | httpErr => exact ih (i + 1) false
      | timeoutErr => exact ih (i + 1) false
      | reqErr => exact ih (i + 1) false

/-- C9: every deferred telemetry delivery performs at most
`MAX_FASTAPI_RETRIES` (3) loop attempts, sleeps the fixed 1-second delay at
most that many times, and when no attempt succeeds it terminates returning
failure (the record is dropped) rather than retrying indefinitely. -/
theorem c9_send_retries_bounded :
    (∀ reconnect post avail,
      (sendToFastapi reconnect post avail).attempts ≤ MAX_FASTAPI_RETRIES ∧
      (sendToFastapi reconnect post avail).sleeps ≤ MAX_FASTAPI_RETRIES) ∧
    (∀ reconnect post avail, (∀ i, post i ≠ PostOutcome.ok) →
      (sendToFastapi reconnect post avail).success = false) := by
  constructor
  · intro reconnect post avail
    exact sendLoop_bounds reconnect post MAX_FASTAPI_RETRIES 0 avail
  · intro reconnect post avail hfail
    exact sendLoop_all_fail reconnect post hfail MAX_FASTAPI_RETRIES 0 avail

/-- Witness for C9: a collector that always times out yields failure after
the bounded attempts. -/
theorem c9_witness :
    (sendToFastapi (fun _ => false) (fun _ => PostOutcome.timeoutErr) true).attempts ≤
        MAX_FASTAPI_RETRIES ∧
      (sendToFastapi (fun _ => false) (fun _ => PostOutcome.timeoutErr) true).success = false :=
  ⟨(c9_send_retries_bounded.1 (fun _ => false) (fun _ => PostOutcome.timeoutErr) true).1,
    c9_send_retries_bounded.2 (fun _ => false) (fun _ => PostOutcome.timeoutErr) true
      (fun i h => by simp at h)⟩

/-- C10: `is_last_command_ping` returns `False` rather than raising when the
backing file cannot be read or records no last command, and returns `True`
exactly when a last command exists whose `type` field equals `"ping"`. -/
theorem c10_is_last_command_ping :
    isLastCommandPing DbRead.ioError = false ∧
    isLastCommandPing (DbRead.ok none) = false ∧
    (∀ r : DbRead, isLastCommandPing r = true ↔
      ∃ c, getLastCommand r = some c ∧ c.type = some "ping") := by
  refine ⟨rfl, rfl, ?_⟩
  intro r
  cases r with
  | ioError => simp [isLastCommandPing, getLastCommand, readDb]
  | ok lc =>
    cases lc with
    | none => simp [isLastCommandPing, getLastCommand, readDb]
    | some c => simp [isLastCommandPing, getLastCommand, readDb]

/-- Witness for C10: a concrete last command of type ping makes the check
true; a pingall one makes it false. -/
theorem c10_witness :
    isLastCommandPing (DbRead.ok (some ⟨1, some "ping h1 h2", some "ping", none⟩)) = true ∧
      isLastCommandPing (DbRead.ok (some ⟨2, some "pingall", some "pingall", none⟩)) = false := by
  constructor
  · exact (c10_is_last_command_ping.2.2 _).2 ⟨_, rfl, rfl⟩
  · have h := c10_is_last_command_ping.2.2
      (DbRead.ok (some ⟨2, some "pingall", some "pingall", none⟩))
    cases hb : isLastCommandPing (DbRead.ok (some ⟨2, some "pingall", some "pingall", none⟩)) with
    | false => rfl
    | true =>
      obtain ⟨c, hc, ht⟩ := h.1 hb
      injection hc with hc2
      rw [← hc2] at ht
      simp at ht

theorem resolvedStage_flood (s4 : NetState) (db : DbRead) (ev : PktEvent)
    (eth : EthInfo) (ip : IpInfo) (path : List Nat) (dcalled : Bool)
    (h : (resolvedStage s4 db ev eth ip path dcalled).outcome = Outcome.unknownDest ∨
      (resolvedStage s4 db ev eth ip path dcalled).outcome = Outcome.noPath ∨
      (resolvedStage s4 db ev eth ip path dcalled).outcome = Outcome.notOnPath) :
    Action.flood ev.dpid ev.port ∈ (resolvedStage s4 db ev eth ip path dcalled).acts := by
  rcases hr : resolvedStage s4 db ev eth ip path dcalled with ⟨st, acts, dc, up, pr, oc⟩
  rw [hr] at h
  simp only at h ⊢
  unfold resolvedStage at hr
  repeat' (first | split at hr | simp only [] at hr)
  all_goals injection hr with h1 h2 h3 h4 h5 h6
  all_goals subst_vars
  all_goals simp_all

theorem arpStage_flood (s1 : NetState) (src_mac : String) (ev : PktEvent) (eth : EthInfo)
    (h : (arpStage s1 src_mac ev eth).outcome = Outcome.unknownDest ∨
      (arpStage s1 src_mac ev eth).outcome = Outcome.noPath ∨
      (arpStage s1 src_mac ev eth).outcome = Outcome.notOnPath) :
    Action.flood ev.dpid ev.port ∈ (arpStage s1 src_mac ev eth).acts := by
  rcases hr : arpStage s1 src_mac ev eth with ⟨st, acts, dc, up, pr, oc⟩
  rw [hr] at h
  simp only at h ⊢
  unfold arpStage at hr
  repeat' (first | split at hr | simp only [] at hr)
  all_goals injection hr with h1 h2 h3 h4 h5 h6
  all_goals subst_vars
  all_goals simp_all

theorem nonIpStage_flood (s1 : NetState) (ev : PktEvent) (eth : EthInfo)
    (h : (nonIpStage s1 ev eth).outcome = Outcome.unknownDest ∨
      (nonIpStage s1 ev eth).outcome = Outcome.noPath ∨
      (nonIpStage s1 ev eth).outcome = Outcome.notOnPath) :
    Action.flood ev.dpid ev.port ∈ (nonIpStage s1 ev eth).acts := by
  rcases hr : nonIpStage s1 ev eth with ⟨st, acts, dc, up, pr, oc⟩
  rw [hr] at h
  simp only at h ⊢
  unfold nonIpStage at hr
  repeat' (first | split at hr | simp only [] at hr)
  all_goals injection hr with h1 h2 h3 h4 h5 h6
  all_goals subst_vars
  all_goals simp_all

theorem ipCacheStage_flood (s3 : NetState) (db : DbRead) (ev : PktEvent)
    (eth : EthInfo) (ip : IpInfo)
    (h : (ipCacheStage s3 db ev eth ip).outcome = Outcome.unknownDest ∨
      (ipCacheStage s3 db ev eth ip).outcome = Outcome.noPath ∨
      (ipCacheStage s3 db ev eth ip).outcome = Outcome.notOnPath) :
    Action.flood ev.dpid ev.port ∈ (ipCacheStage s3 db ev eth ip).acts := by
  rcases hr : ipCacheStage s3 db ev eth ip with ⟨st, acts, dc, up, pr, oc⟩
  rw [hr] at h
  simp only at h ⊢
  unfold ipCacheStage at hr
  repeat' (first | split at hr | simp only [] at hr)
  all_goals first
    | (injection hr with h1 h2 h3 h4 h5 h6
       subst_vars
       simp_all)
    | (have hoc := congrArg PIRes.outcome hr
       have hacts := congrArg PIRes.acts hr
       simp only at hoc hacts
       rw [← hoc] at h
       rw [← hacts]
       exact resolvedStage_flood _ _ _ _ _ _ _ h)

theorem ipStage_flood (s1 : NetState) (src_mac : String) (db : DbRead) (ev : PktEvent)
    (eth : EthInfo) (ip : IpInfo)
    (h : (ipStage s1 src_mac db ev eth ip).outcome = Outcome.unknownDest ∨
      (ipStage s1 src_mac db ev eth ip).outcome = Outcome.noPath ∨
      (ipStage s1 src_mac db ev eth ip).outcome = Outcome.notOnPath) :
    Action.flood ev.dpid ev.port ∈ (ipStage s1 src_mac db ev eth ip).acts := by
  rcases hr : ipStage s1 src_mac db ev eth ip with ⟨st, acts, dc, up, pr, oc⟩
  rw [hr] at h
  simp only at h ⊢
  unfold ipStage at hr
  repeat' (first | split at hr | simp only [] at hr)
  all_goals first
    | (injection hr with h1 h2 h3 h4 h5 h6
       subst_vars
       simp_all)
    | (have hoc := congrArg PIRes.outcome hr
       have hacts := congrArg PIRes.acts hr
       simp only at hoc hacts
       rw [← hoc] at h
       rw [← hacts]
       exact ipCacheStage_flood _ _ _ _ _ h)

/-- C3: for every packet-in whose processing ends at one of the
"no forwarding decision applies" return points — unknown unicast destination,
no computed path, or arriving switch not on the path — the handler emits a
flood packet-out on the arriving switch and ingress port; it never returns
from these points without an output action. -/
theorem c3_flood_fallback (s : NetState) (db : DbRead) (ev : PktEvent)
    (h : (handlePacketIn s db ev).outcome = Outcome.unknownDest ∨
      (handlePacketIn s db ev).outcome = Outcome.noPath ∨
      (handlePacketIn s db ev).outcome = Outcome.notOnPath) :
    Action.flood ev.dpid ev.port ∈ (handlePacketIn s db ev).acts := by
  rcases hr : handlePacketIn s db ev with ⟨st, acts, dc, up, pr, oc⟩
  rw [hr] at h
  simp only at h ⊢
  unfold handlePacketIn at hr
  repeat' (first | split at hr | simp only [] at hr)
  all_goals first
    | (injection hr with h1 h2 h3 h4 h5 h6
       subst_vars
       simp_all)
    | (have hoc := congrArg PIRes.outcome hr
       have hacts := congrArg PIRes.acts hr
       simp only at hoc hacts
       rw [← hoc] at h
       rw [← hacts]
       first
         | exact arpStage_flood _ _ _ _ h
         | exact nonIpStage_flood _ _ _ h
         | exact ipStage_flood _ _ _ _ _ _ h)

/-- Witness for C3: an IP packet to an unknown destination on the empty state
is flooded. -/
theorem c3_witness :
    Action.flood 1 4 ∈ (handlePacketIn ⟨[], [], [], [], [], [], [], []⟩ DbRead.ioError
      ⟨1, 4, ⟨true, some ⟨⟨[0, 0, 0, 0, 0, 1], false, false⟩,
        ⟨[0, 0, 0, 0, 0, 2], false, false⟩, 2048⟩, none,
        some ⟨⟨"10.0.0.1", false, false⟩, ⟨"10.0.0.2", false, false⟩, 64⟩, none⟩⟩).acts :=
  c3_flood_fallback ⟨[], [], [], [], [], [], [], []⟩ DbRead.ioError
    ⟨1, 4, ⟨true, some ⟨⟨[0, 0, 0, 0, 0, 1], false, false⟩,
      ⟨[0, 0, 0, 0, 0, 2], false, false⟩, 2048⟩, none,
      some ⟨⟨"10.0.0.1", false, false⟩, ⟨"10.0.0.2", false, false⟩, 64⟩, none⟩⟩
    (Or.inl (by decide))

theorem arpStage_pathResolved (s1 : NetState) (src_mac : String) (ev : PktEvent)
    (eth : EthInfo) : (arpStage s1 src_mac ev eth).pathResolved = false := by
  unfold arpStage
  repeat' (first | split | simp only [])

theorem nonIpStage_pathResolved (s1 : NetState) (ev : PktEvent) (eth : EthInfo) :
    (nonIpStage s1 ev eth).pathResolved = false := by
  unfold nonIpStage
  repeat' (first | split | simp only [])

theorem ipCacheStage_tele (s3 : NetState) (db : DbRead) (ev : PktEvent)
    (eth : EthInfo) (ip : IpInfo) (ic : IcmpInfo)
    (hicmp : ev.pkt.icmp = some ic) (hty : ic.type = 8 ∨ ic.type = 0)
    (hres : (ipCacheStage s3 db ev eth ip).pathResolved = true) :
    hasTele (ipCacheStage s3 db ev eth ip).acts = isLastCommandPing db := by
  rcases hr : ipCacheStage s3 db ev eth ip with ⟨st, acts, dc, up, pr, oc⟩
  rw [hr] at hres
  simp only at hres ⊢
  unfold ipCacheStage at hr
  repeat' (first | split at hr | simp only [] at hr)
  all_goals first
    | (injection hr with h1 h2 h3 h4 h5 h6
       subst_vars
       simp_all)
    | (have hacts := congrArg PIRes.acts hr
       simp only at hacts
       rw [← hacts]
       exact resolvedStage_hasTele _ _ _ _ _ _ _ ic hicmp hty)

theorem ipStage_tele (s1 : NetState) (src_mac : String) (db : DbRead) (ev : PktEvent)
    (eth : EthInfo) (ip : IpInfo) (ic : IcmpInfo)
    (hicmp : ev.pkt.icmp = some ic) (hty : ic.type = 8 ∨ ic.type = 0)
    (hres : (ipStage s1 src_mac db ev eth ip).pathResolved = true) :
    hasTele (ipStage s1 src_mac db ev eth ip).acts = isLastCommandPing db := by
  rcases hr : ipStage s1 src_mac db ev eth ip with ⟨st, acts, dc, up, pr, oc⟩
  rw [hr] at hres
  simp only at hres ⊢
  unfold ipStage at hr
  repeat' (first | split at hr | simp only [] at hr)
  all_goals first
    | (injection hr with h1 h2 h3 h4 h5 h6
       subst_vars
       simp_all)
    | (have hacts := congrArg PIRes.acts hr
       have hpr := congrArg PIRes.pathResolved hr
       simp only at hacts hpr
       rw [← hacts]
       exact ipCacheStage_tele _ _ _ _ _ ic hicmp hty (by rw [hpr]; exact hres))

/-- C4: for every packet-in carrying an ICMP Echo Request (type 8) or Echo
Reply (type 0) that reaches the path-resolved stage, a telemetry record is
emitted if and only if the command log's most recent command has type
"ping" (`is_last_command_ping`); in particular a most-recent "pingall"
suppresses telemetry. -/
theorem c4_telemetry_filter (s : NetState) (db : DbRead) (ev : PktEvent) (ic : IcmpInfo)
    (hicmp : ev.pkt.icmp = some ic) (hty : ic.type = 8 ∨ ic.type = 0)
    (hres : (handlePacketIn s db ev).pathResolved = true) :
    ((∃ k sh dh p t, Action.telemetry k sh dh p t ∈ (handlePacketIn s db ev).acts) ↔
      isLastCommandPing db = true) := by
  rw [← hasTele_iff]
  rcases hr : handlePacketIn s db ev with ⟨st, acts, dc, up, pr, oc⟩
  rw [hr] at hres
  simp only at hres ⊢
  have key : hasTele acts = isLastCommandPing db := by
    unfold handlePacketIn at hr
    repeat' (first | split at hr | simp only [] at hr)
    all_goals first
      | (injection hr with h1 h2 h3 h4 h5 h6
         subst_vars
         simp_all)
      | (have hpr := congrArg PIRes.pathResolved hr
         rw [arpStage_pathResolved] at hpr
         simp only at hpr
         simp_all)
      | (have hpr := congrArg PIRes.pathResolved hr
         rw [nonIpStage_pathResolved] at hpr
         simp only at hpr
         simp_all)
      | (have hacts := congrArg PIRes.acts hr
         have hpr := congrArg PIRes.pathResolved hr
         simp only at hacts hpr
         rw [← hacts]
         exact ipStage_tele _ _ _ _ _ _ ic hicmp hty
           (by rw [hpr]
               all_goals exact hres))
  rw [key]

/-- Witness for C4: with a cached same-path state, an Echo Request while the
last command is `pingall` produces no telemetry record. -/
theorem c4_witness :
    ¬∃ k sh dh p t, Action.telemetry k sh dh p t ∈
      (handlePacketIn
        ⟨[(1, [(2, 10)]), (2, [(1, 11)])], [(("10.0.0.1", "10.0.0.2"), [1, 2])],
          [("10.0.0.1", 1), ("10.0.0.2", 2)], [], [], [], [], []⟩
        (DbRead.ok (some ⟨2, some "pingall", some "pingall", none⟩))
        ⟨1, 4, ⟨true, some ⟨⟨[0, 0, 0, 0, 0, 1], false, false⟩,
          ⟨[0, 0, 0, 0, 0, 2], false, false⟩, 2048⟩, none,
          some ⟨⟨"10.0.0.1", false, false⟩, ⟨"10.0.0.2", false, false⟩, 64⟩,
          some ⟨8, 0⟩⟩⟩).acts :=
  fun hex => absurd
    ((c4_telemetry_filter
      ⟨[(1, [(2, 10)]), (2, [(1, 11)])], [(("10.0.0.1", "10.0.0.2"), [1, 2])],
        [("10.0.0.1", 1), ("10.0.0.2", 2)], [], [], [], [], []⟩
      (DbRead.ok (some ⟨2, some "pingall", some "pingall", none⟩))
      ⟨1, 4, ⟨true, some ⟨⟨[0, 0, 0, 0, 0, 1], false, false⟩,
        ⟨[0, 0, 0, 0, 0, 2], false, false⟩, 2048⟩, none,
        some ⟨⟨"10.0.0.1", false, false⟩, ⟨"10.0.0.2", false, false⟩, 64⟩,
        some ⟨8, 0⟩⟩⟩ ⟨8, 0⟩ rfl (Or.inl rfl) (by decide)).1 hex)
    (by decide)

theorem arpStage_nodijkstra (s1 : NetState) (src_mac : String) (ev : PktEvent)
    (eth : EthInfo) (cp : List Nat) :
    (arpStage s1 src_mac ev eth).dijkstraCalled = false ∧
      (∀ p, (arpStage s1 src_mac ev eth).usedPath = some p → p = cp) := by
  unfold arpStage
  repeat' (first | split | simp only [])
  all_goals simp

theorem nonIpStage_nodijkstra (s1 : NetState) (ev : PktEvent) (eth : EthInfo)
    (cp : List Nat) :
    (nonIpStage s1 ev eth).dijkstraCalled = false ∧
      (∀ p, (nonIpStage s1 ev eth).usedPath = some p → p = cp) := by
  unfold nonIpStage
  repeat' (first | split | simp only [])
  all_goals simp

theorem ipCacheStage_cached (s3 : NetState) (db : DbRead) (ev : PktEvent)
    (eth : EthInfo) (ip : IpInfo) (cp : List Nat)
    (hcp : aget s3.path_table (ip.srcip.txt, ip.dstip.txt) = some cp) :
    (ipCacheStage s3 db ev eth ip).dijkstraCalled = false ∧
      (∀ p, (ipCacheStage s3 db ev eth ip).usedPath = some p → p = cp) := by
  unfold ipCacheStage
  simp only [hcp, resolvedStage_dijkstraCalled, resolvedStage_usedPath]
  refine ⟨by simp, fun p hp => ?_⟩
  exact (Option.some.inj hp).symm

theorem ipStage_cached (s1 : NetState) (src_mac : String) (db : DbRead)
    (ev : PktEvent) (eth : EthInfo) (ip : IpInfo) (cp : List Nat)
    (hcp : aget s1.path_table (ip.srcip.txt, ip.dstip.txt) = some cp) :
    (ipStage s1 src_mac db ev eth ip).dijkstraCalled = false ∧
      (∀ p, (ipStage s1 src_mac db ev eth ip).usedPath = some p → p = cp) := by
  rcases hr : ipStage s1 src_mac db ev eth ip with ⟨st, acts, dc, up, pr, oc⟩
  simp only
  unfold ipStage at hr
  repeat' (first | split at hr | simp only [] at hr)
  all_goals first
    | (injection hr with h1 h2 h3 h4 h5 h6
       subst_vars
       exact ⟨rfl, fun p hp => Option.noConfusion hp⟩)
    | (have hdc := congrArg PIRes.dijkstraCalled hr
       have hup := congrArg PIRes.usedPath hr
       simp only at hdc hup
       rw [← hdc, ← hup]
       exact ipCacheStage_cached _ _ _ _ _ cp (by simp_all))

/-- C2: after any link-added or link-removed event the path cache is empty;
and a packet-in whose host IP pair is already cached neither invokes
`dijkstra` nor uses any path other than the cached sequence. -/
theorem c2_cache_coherence :
    (∀ (s : NetState) (ev : LinkEv), ev.added = true ∨ ev.removed = true →
      (handleLinkEvent s ev).path_table = []) ∧
    (∀ (s : NetState) (db : DbRead) (ev : PktEvent) (ii : IpInfo) (cp : List Nat),
      ev.pkt.ip = some ii →
      aget s.path_table (ii.srcip.txt, ii.dstip.txt) = some cp →
      (handlePacketIn s db ev).dijkstraCalled = false ∧
      (∀ p, (handlePacketIn s db ev).usedPath = some p → p = cp)) := by
  constructor
  · intro s ev h
    by_cases hadd : ev.added = true
    · simp [handleLinkEvent, hadd]
    · rcases h with h | h
      · exact absurd h hadd
      · simp [handleLinkEvent, hadd, h]
  · intro s db ev ii cp hip hcp
    rcases hr : handlePacketIn s db ev with ⟨st, acts, dc, up, pr, oc⟩
    simp only
    unfold handlePacketIn at hr
    repeat' (first | split at hr | simp only [] at hr)
    all_goals first
      | (injection hr with h1 h2 h3 h4 h5 h6
         subst_vars
         exact ⟨rfl, fun p hp => Option.noConfusion hp⟩)
      | (have hdc := congrArg PIRes.dijkstraCalled hr
         have hup := congrArg PIRes.usedPath hr
         simp only at hdc hup
         rw [← hdc, ← hup]
         first
           | exact arpStage_nodijkstra _ _ _ _ cp
           | exact nonIpStage_nodijkstra _ _ _ cp
           | exact ipStage_cached _ _ _ _ _ _ cp
               (by rw [learnMac_path_table]; simp_all))

/-- Witness for C2: a concrete link-added event leaves an empty cache, and a
packet-in over a cached pair uses the cache without invoking dijkstra. -/
theorem c2_witness :
    (handleLinkEvent ⟨[], [(("10.0.0.9", "10.0.0.8"), [7])], [], [], [], [], [], []⟩
      ⟨1, 2, 5, 6, true, false⟩).path_table = [] ∧
    ((handlePacketIn
        ⟨[(1, [(2, 10)]), (2, [(1, 11)])], [(("10.0.0.1", "10.0.0.2"), [1, 2])],
          [("10.0.0.1", 1), ("10.0.0.2", 2)], [], [], [], [], []⟩ DbRead.ioError
        ⟨1, 4, ⟨true, some ⟨⟨[0, 0, 0, 0, 0, 1], false, false⟩,
          ⟨[0, 0, 0, 0, 0, 2], false, false⟩, 2048⟩, none,
          some ⟨⟨"10.0.0.1", false, false⟩, ⟨"10.0.0.2", false, false⟩, 64⟩,
          none⟩⟩).dijkstraCalled = false ∧
      (∀ p, (handlePacketIn
        ⟨[(1, [(2, 10)]), (2, [(1, 11)])], [(("10.0.0.1", "10.0.0.2"), [1, 2])],
          [("10.0.0.1", 1), ("10.0.0.2", 2)], [], [], [], [], []⟩ DbRead.ioError
        ⟨1, 4, ⟨true, some ⟨⟨[0, 0, 0, 0, 0, 1], false, false⟩,
          ⟨[0, 0, 0, 0, 0, 2], false, false⟩, 2048⟩, none,
          some ⟨⟨"10.0.0.1", false, false⟩, ⟨"10.0.0.2", false, false⟩, 64⟩,
          none⟩⟩).usedPath = some p → p = [1, 2])) :=
  ⟨c2_cache_coherence.1 ⟨[], [(("10.0.0.9", "10.0.0.8"), [7])], [], [], [], [], [], []⟩
      ⟨1, 2, 5, 6, true, false⟩ (Or.inl rfl),
    c2_cache_coherence.2
      ⟨[(1, [(2, 10)]), (2, [(1, 11)])], [(("10.0.0.1", "10.0.0.2"), [1, 2])],
        [("10.0.0.1", 1), ("10.0.0.2", 2)], [], [], [], [], []⟩ DbRead.ioError
      ⟨1, 4, ⟨true, some ⟨⟨[0, 0, 0, 0, 0, 1], false, false⟩,
        ⟨[0, 0, 0, 0, 0, 2], false, false⟩, 2048⟩, none,
        some ⟨⟨"10.0.0.1", false, false⟩, ⟨"10.0.0.2", false, false⟩, 64⟩, none⟩⟩
      ⟨⟨"10.0.0.1", false, false⟩, ⟨"10.0.0.2", false, false⟩, 64⟩ [1, 2] rfl (by decide)⟩

theorem lookupByEthAddr_none (a : EthAddr) (m : List (String × Nat × Nat)) :
    lookupByEthAddr a m = none := by
  unfold lookupByEthAddr
  induction m with
  | nil => rfl
  | cons hd t ih =>
    rw [List.find?_cons_of_neg]
    · exact ih
    · simp [ethAddrMatchesStrKey]

/-- C8 (code_bug): at the path's last hop, `forward_packet` tests
`packet.dst in mac_to_port` with the raw `EthAddr` object, while `mac_to_port`
keys are the `str(...)` forms; the CPython lookup therefore never hits, so the
recorded port is never used and the packet is always flooded — even when the
destination MAC's `(switch, port)` is recorded under its string key, as the
concrete state shows. -/
theorem c8_last_hop_flood_bug :
    (∀ (a : EthAddr) (m : List (String × Nat × Nat)), lookupByEthAddr a m = none) ∧
    (aget (⟨[], [], [], [("00:00:00:00:00:02", (5, 3))], [], [], [], []⟩ :
        NetState).mac_to_port (ethStr ⟨[0, 0, 0, 0, 0, 2], false, false⟩) = some (5, 3) ∧
      forwardPacket ⟨[], [], [], [("00:00:00:00:00:02", (5, 3))], [], [], [], []⟩ 5 1
        ⟨[0, 0, 0, 0, 0, 2], false, false⟩ [4, 5] = [Action.flood 5 1]) :=
  ⟨lookupByEthAddr_none, by decide, by decide⟩

end NetSim
